import Mathlib

/-!
Shallow embedding of `src/main.py`, a CSP timetable solver.

The Python program keeps its state in dictionaries; here a dictionary is an
association list with Python's insertion-order semantics: updating an existing
key keeps its position, inserting a fresh key appends at the end, deletion
removes the entry.  The recursive method `ScheduleCSP.backtrack` is modelled by
a fuel-indexed function `backtrack` returning both the Python return value and
the final `self.assignments` state; the fuel bound used by `find_solution`
(number of variables + 1) is provably sufficient, `SearchRes.outOfFuel` is a
modelling artifact and never a program behaviour.  Uncaught Python exceptions
are explicit outcomes: `crashIndex` for the `unassigned[0]` IndexError,
`crashKey` for a missing key in `self.domains`, `crashStop` for a
`StopIteration` escaping from `unique_group_time`, and the `none` result of
`buildDomains` / `find_solution` for a `StopIteration` raised while the domain
dictionary is being built.  The Python local `variables` is `variablesOf` here
(`variables` is not a usable identifier in Lean); fields that only the printing
wrapper reads (`name`) are omitted.
-/

set_option maxRecDepth 8000

namespace Main

structure Room where
  id : String
  capacity : Int
deriving DecidableEq, Repr

structure Lecturer where
  id : String
deriving DecidableEq, Repr

structure Group where
  id : String
  size : Int
deriving DecidableEq, Repr

structure Subject where
  id : String
  groupId : String
  count : Nat
  suitedLecturers : List String
deriving DecidableEq, Repr

structure InputData where
  timeSlots : List String
  rooms : List Room
  lecturers : List Lecturer
  groups : List Group
  subjects : List Subject
deriving DecidableEq, Repr

structure Value where
  timeSlot : String
  room : String
  lecturer : String
deriving DecidableEq, Repr

abbrev Key : Type := String × Nat

abbrev AsgList : Type := List (Key × Value)

def dictMem {α : Type} (k : Key) (d : List (Key × α)) : Bool :=
  d.any fun e => decide (e.1 = k)

def dictLookup {α : Type} (k : Key) (d : List (Key × α)) : Option α :=
  (d.find? fun e => decide (e.1 = k)).map fun e => e.2

def dictInsert {α : Type} (k : Key) (v : α) : List (Key × α) → List (Key × α)
  | [] => [(k, v)]
  | e :: rest => if e.1 = k then (k, v) :: rest else e :: dictInsert k v rest

def dictErase {α : Type} (k : Key) : List (Key × α) → List (Key × α)
  | [] => []
  | e :: rest => if e.1 = k then rest else e :: dictErase k rest

def dictKeys {α : Type} (d : List (Key × α)) : List Key := d.map fun e => e.1

def dictValues {α : Type} (d : List (Key × α)) : List α := d.map fun e => e.2

/-- The "seen set" loop shared by `unique_time_room` and `unique_lecturer_time`:
walk the list, fail on the first repeated projection. -/
def scanNoDup {α β : Type} [DecidableEq β] (f : α → β) (seen : List β) : List α → Bool
  | [] => true
  | x :: rest => if f x ∈ seen then false else scanNoDup f (f x :: seen) rest

def unique_time_room (assignments : AsgList) : Bool :=
  scanNoDup (fun v => (v.timeSlot, v.room)) [] (dictValues assignments)

def unique_lecturer_time (assignments : AsgList) : Bool :=
  scanNoDup (fun v => (v.timeSlot, v.lecturer)) [] (dictValues assignments)

/-- The `next(subject for subject in data["subjects"] if subject["id"] == subject_id)`
lookup of `unique_group_time`: first subject with the given id, `none` meaning
`StopIteration`. -/
def findSubject (data : InputData) (sid : String) : Option Subject :=
  data.subjects.find? fun s => decide (s.id = sid)

def ugtGo (data : InputData) (seen : List (String × String)) : AsgList → Option Bool
  | [] => some true
  | e :: rest =>
    match findSubject data e.1.1 with
    | none => none
    | some s =>
      if (e.2.timeSlot, s.groupId) ∈ seen then some false
      else ugtGo data ((e.2.timeSlot, s.groupId) :: seen) rest

def unique_group_time (data : InputData) (assignments : AsgList) : Option Bool :=
  ugtGo data [] assignments

/-- `ScheduleCSP.is_consistent`: tentatively store `value` under `var`, run the
constraints in list order, remove the entry again, and report the boolean
together with the resulting assignment state.  `none` is the `StopIteration`
escaping from `unique_group_time` (the tentative entry is then still present,
but the exception kills the whole run). -/
def is_consistent (data : InputData) (assignments : AsgList) (var : Key) (value : Value) :
    Option (Bool × AsgList) :=
  if unique_time_room (dictInsert var value assignments) then
    if unique_lecturer_time (dictInsert var value assignments) then
      match unique_group_time data (dictInsert var value assignments) with
      | none => none
      | some true => some (true, dictErase var (dictInsert var value assignments))
      | some false => some (false, dictErase var (dictInsert var value assignments))
    else some (false, dictErase var (dictInsert var value assignments))
  else some (false, dictErase var (dictInsert var value assignments))

inductive SearchRes where
  | sol (a : AsgList)
  | noSol
  | crashIndex
  | crashKey
  | crashStop
  | outOfFuel
deriving DecidableEq, Repr

/-- The `for value in self.domains[variable]` loop body of `ScheduleCSP.backtrack`:
try each candidate, recurse through `next` on success, undo on failure. -/
def tryVals (data : InputData) (next : AsgList → SearchRes × AsgList) (var : Key) :
    AsgList → List Value → SearchRes × AsgList
  | asg, [] => (SearchRes.noSol, asg)
  | asg, value :: values =>
    match is_consistent data asg var value with
    | none => (SearchRes.crashStop, dictInsert var value asg)
    | some (true, asg1) =>
      match next (dictInsert var value asg1) with
      | (SearchRes.noSol, st) => tryVals data next var (dictErase var st) values
      | r => r
    | some (false, asg1) => tryVals data next var asg1 values

/-- `ScheduleCSP.backtrack`, fuel-indexed.  The `ScheduleCSP` object is flattened
into the `data`/`vars`/`doms` parameters; the pair holds the Python return value
and the final `self.assignments`. -/
def backtrack (data : InputData) (vars : List Key) (doms : List (Key × List Value)) :
    Nat → AsgList → SearchRes × AsgList
  | 0, asg => (SearchRes.outOfFuel, asg)
  | fuel + 1, asg =>
    if asg.length = vars.length then (SearchRes.sol asg, asg)
    else
      match vars.filter (fun v => !dictMem v asg) with
      | [] => (SearchRes.crashIndex, asg)
      | var :: _ =>
        match dictLookup var doms with
        | none => (SearchRes.crashKey, asg)
        | some dom => tryVals data (fun a => backtrack data vars doms fuel a) var asg dom

def allTriples (data : InputData) : List (String × Room × Lecturer) :=
  data.timeSlots.flatMap fun t =>
    data.rooms.flatMap fun r => data.lecturers.map fun l => (t, r, l)

/-- The `next(group["size"] ...)` lookup of the domain comprehension:
first group with the given id, `none` meaning `StopIteration`. -/
def findGroup (data : InputData) (gid : String) : Option Group :=
  data.groups.find? fun g => decide (g.id = gid)

/-- The inner list comprehension of `find_solution`, for one subject, over an
explicit list of (timeSlot, room, lecturer) triples.  The suitability test is
evaluated before the group lookup, mirroring the short-circuit `and`. -/
def sessionDomainAux (data : InputData) (s : Subject) :
    List (String × Room × Lecturer) → Option (List Value)
  | [] => some []
  | (t, r, l) :: rest =>
    if l.id ∈ s.suitedLecturers then
      match findGroup data s.groupId with
      | none => none
      | some g =>
        match sessionDomainAux data s rest with
        | none => none
        | some vs =>
          some (if g.size ≤ r.capacity then
            { timeSlot := t, room := r.id, lecturer := l.id } :: vs else vs)
    else sessionDomainAux data s rest

def sessionDomain (data : InputData) (s : Subject) : Option (List Value) :=
  sessionDomainAux data s (allTriples data)

def sessionKeys (data : InputData) : List (Subject × Nat) :=
  data.subjects.flatMap fun s => (List.range s.count).map fun i => (s, i)

/-- The `domains` dict comprehension of `find_solution`: one entry per
`(subject["id"], subject_count)`, inserted in generation order. -/
def domainsInsertAll (data : InputData) :
    List (Key × List Value) → List (Subject × Nat) → Option (List (Key × List Value))
  | acc, [] => some acc
  | acc, (s, i) :: rest =>
    match sessionDomain data s with
    | none => none
    | some dom => domainsInsertAll data (dictInsert (s.id, i) dom acc) rest

def buildDomains (data : InputData) : Option (List (Key × List Value)) :=
  domainsInsertAll data [] (sessionKeys data)

def variablesOf (data : InputData) : List Key :=
  data.subjects.flatMap fun s => (List.range s.count).map fun i => (s.id, i)

/-- `find_solution`: build the domains (a `none` is the fatal `StopIteration`
of the comprehension), then run the search.  The returned `SearchRes` is the
Python return value of `schedule_csp.backtrack()`. -/
def find_solution (data : InputData) : Option SearchRes :=
  match buildDomains data with
  | none => none
  | some doms =>
    some (backtrack data (variablesOf data) doms ((variablesOf data).length + 1) []).1

def settled : SearchRes → Bool
  | SearchRes.outOfFuel => false
  | _ => true

def isSol : SearchRes → Bool
  | SearchRes.sol _ => true
  | _ => false

def subjGroup (data : InputData) (sid : String) : Option String :=
  (findSubject data sid).map fun s => s.groupId

def trPair (e : Key × Value) : String × String := (e.2.timeSlot, e.2.room)

def tlPair (e : Key × Value) : String × String := (e.2.timeSlot, e.2.lecturer)

def ggPair (data : InputData) (e : Key × Value) : String × String :=
  (e.2.timeSlot, (subjGroup data e.1.1).getD "")

def ConsistentB (data : InputData) (asg : AsgList) : Prop :=
  unique_time_room asg = true ∧ unique_lecturer_time asg = true ∧
    unique_group_time data asg = some true

def unassignedList (vars : List Key) (asg : AsgList) : List Key :=
  vars.filter fun v => !dictMem v asg

def ucount (vars : List Key) (asg : AsgList) : Nat := (unassignedList vars asg).length

def inDomainB (doms : List (Key × List Value)) (e : Key × Value) : Bool :=
  match dictLookup e.1 doms with
  | none => false
  | some dom => decide (e.2 ∈ dom)

/-- A full satisfying assignment: one candidate per session (keys in variable
order), every candidate drawn from the built domains, all three hard
constraints passing. -/
def SatAssign (data : InputData) (doms : List (Key × List Value)) (F : AsgList) : Prop :=
  dictKeys F = variablesOf data ∧ (∀ e ∈ F, inDomainB doms e = true) ∧
    unique_time_room F = true ∧ unique_lecturer_time F = true ∧
    unique_group_time data F = some true

/-- Spec-side domain of one session, written from the Domain Builder contract:
all (timeSlot, room, lecturer) triples with a suited lecturer and a room large
enough for the subject's group, nested iteration with time slots outermost,
then rooms, then lecturers, each in catalog order. -/
def specSessionDomain (data : InputData) (s : Subject) (g : Group) : List Value :=
  data.timeSlots.flatMap fun t =>
    data.rooms.flatMap fun r =>
      (data.lecturers.filter fun l =>
          decide (l.id ∈ s.suitedLecturers) && decide (g.size ≤ r.capacity)).map
        fun l => { timeSlot := t, room := r.id, lecturer := l.id }

def totalSessions (data : InputData) : Nat := (data.subjects.map fun s => s.count).sum

/-- Invariant of every assignment state the search can reach: keys are distinct
variables, every stored candidate came from the stored domain map, and the
state passes all three constraints. -/
def ReachInv (data : InputData) (vars : List Key) (doms : List (Key × List Value))
    (asg : AsgList) : Prop :=
  (dictKeys asg).Nodup ∧ (∀ e ∈ asg, e.1 ∈ vars) ∧
    (∀ e ∈ asg, ∃ dom, dictLookup e.1 doms = some dom ∧ e.2 ∈ dom) ∧ ConsistentB data asg

/-- The spec's example scenario: one time slot, one room (capacity 30), one
lecturer, one group (size 20), one subject with count 1. -/
def exSubject : Subject :=
  { id := "S", groupId := "G", count := 1, suitedLecturers := ["L"] }

def exGroup : Group := { id := "G", size := 20 }

def exData : InputData :=
  { timeSlots := ["T"], rooms := [{ id := "R", capacity := 30 }],
    lecturers := [{ id := "L" }], groups := [exGroup], subjects := [exSubject] }

def exDoms : List (Key × List Value) := [(("S", 0), [Value.mk "T" "R" "L"])]

def exF : AsgList := [(("S", 0), Value.mk "T" "R" "L")]

/-- A two-subject instance whose solution puts both sessions into the same
time slot (different rooms, lecturers, groups). -/
def wData : InputData :=
  { timeSlots := ["T"],
    rooms := [{ id := "R1", capacity := 30 }, { id := "R2", capacity := 30 }],
    lecturers := [{ id := "L1" }, { id := "L2" }],
    groups := [{ id := "G1", size := 10 }, { id := "G2", size := 10 }],
    subjects := [{ id := "S1", groupId := "G1", count := 1, suitedLecturers := ["L1"] },
                 { id := "S2", groupId := "G2", count := 1, suitedLecturers := ["L2"] }] }

def wSol : AsgList :=
  [(("S1", 0), Value.mk "T" "R1" "L1"), (("S2", 0), Value.mk "T" "R2" "L2")]

/-- Two subjects sharing the id "A": their (subjectId, occurrenceIndex) keys
collide, so the variable list has a duplicate key. -/
def dupData : InputData :=
  { timeSlots := ["T1", "T2"], rooms := [{ id := "R", capacity := 30 }],
    lecturers := [{ id := "L" }], groups := [{ id := "G", size := 20 }],
    subjects := [{ id := "A", groupId := "G", count := 1, suitedLecturers := ["L"] },
                 { id := "A", groupId := "G", count := 1, suitedLecturers := ["L"] }] }

def dupDoms : List (Key × List Value) :=
  [(("A", 0), [Value.mk "T1" "R" "L", Value.mk "T2" "R" "L"])]

def dupF : AsgList :=
  [(("A", 0), Value.mk "T1" "R" "L"), (("A", 0), Value.mk "T2" "R" "L")]

/-- A subject referencing the absent group "G" while the lecturer catalog is
empty, so the comprehension never evaluates the group lookup. -/
def cex5Data : InputData :=
  { timeSlots := ["T"], rooms := [{ id := "R", capacity := 30 }],
    lecturers := [], groups := [],
    subjects := [{ id := "S", groupId := "G", count := 1, suitedLecturers := ["L"] }] }

def w5Subject : Subject :=
  { id := "S", groupId := "G", count := 1, suitedLecturers := ["L"] }

/-- A subject referencing the absent group "G" with a suited lecturer present,
so the group lookup is reached and fails. -/
def w5Data : InputData :=
  { timeSlots := ["T"], rooms := [{ id := "R", capacity := 30 }],
    lecturers := [{ id := "L" }], groups := [], subjects := [w5Subject] }

/-- Two subjects sharing the id "B": the first has no suited lecturer in the
catalog, the second has one, so the shared key gets the second's domain. -/
def cex6Data : InputData :=
  { timeSlots := ["T"], rooms := [{ id := "R", capacity := 30 }],
    lecturers := [{ id := "L" }], groups := [{ id := "G", size := 20 }],
    subjects := [{ id := "B", groupId := "G", count := 1, suitedLecturers := ["X"] },
                 { id := "B", groupId := "G", count := 1, suitedLecturers := ["L"] }] }

def w6Subject : Subject :=
  { id := "S", groupId := "G", count := 1, suitedLecturers := ["X"] }

/-- One subject whose suitedLecturers contains no catalog lecturer id. -/
def w6Data : InputData :=
  { timeSlots := ["T"], rooms := [{ id := "R", capacity := 30 }],
    lecturers := [{ id := "L" }], groups := [{ id := "G", size := 20 }],
    subjects := [w6Subject] }

def w6Doms : List (Key × List Value) := [(("S", 0), [])]

theorem dictMem_eq_false_iff {α : Type} {k : Key} {d : List (Key × α)} :
    dictMem k d = false ↔ ∀ e ∈ d, e.1 ≠ k := by
  simp [dictMem]

theorem dictMem_eq_true_iff {α : Type} {k : Key} {d : List (Key × α)} :
    dictMem k d = true ↔ ∃ v, (k, v) ∈ d := by
  simp only [dictMem, List.any_eq_true, decide_eq_true_eq]
  constructor
  · rintro ⟨⟨k', v⟩, hmem, h⟩
    subst h
    exact ⟨v, hmem⟩
  · rintro ⟨v, hmem⟩
    exact ⟨(k, v), hmem, rfl⟩

theorem mem_dictKeys_iff {α : Type} {k : Key} {d : List (Key × α)} :
    k ∈ dictKeys d ↔ ∃ v, (k, v) ∈ d := by
  simp only [dictKeys, List.mem_map]
  constructor
  · rintro ⟨⟨k', v⟩, hmem, rfl⟩
    exact ⟨v, hmem⟩
  · rintro ⟨v, hmem⟩
    exact ⟨(k, v), hmem, rfl⟩

theorem dictMem_eq_false_iff_not_mem_keys {α : Type} {k : Key} {d : List (Key × α)} :
    dictMem k d = false ↔ k ∉ dictKeys d := by
  rw [dictMem_eq_false_iff]
  simp only [mem_dictKeys_iff, not_exists]
  constructor
  · intro h v hm
    exact h (k, v) hm rfl
  · rintro h ⟨k', v⟩ hm rfl
    exact h v hm

theorem dictInsert_of_not_mem {α : Type} {k : Key} {d : List (Key × α)} (v : α)
    (h : dictMem k d = false) : dictInsert k v d = d ++ [(k, v)] := by
  induction d with
  | nil => rfl
  | cons e rest ih =>
    rw [dictMem_eq_false_iff] at h
    have he : e.1 ≠ k := h e (List.mem_cons_self e rest)
    have hrest : dictMem k rest = false := by
      rw [dictMem_eq_false_iff]
      exact fun e' h' => h e' (List.mem_cons_of_mem _ h')
    simp [dictInsert, he, ih hrest]

theorem dictErase_append_singleton {α : Type} {k : Key} {d : List (Key × α)} (v : α)
    (h : dictMem k d = false) : dictErase k (d ++ [(k, v)]) = d := by
  induction d with
  | nil => simp [dictErase]
  | cons e rest ih =>
    rw [dictMem_eq_false_iff] at h
    have he : e.1 ≠ k := h e (List.mem_cons_self e rest)
    have hrest : dictMem k rest = false := by
      rw [dictMem_eq_false_iff]
      exact fun e' h' => h e' (List.mem_cons_of_mem _ h')
    simp [dictErase, he, ih hrest]

theorem dictErase_dictInsert {α : Type} {k : Key} {d : List (Key × α)} (v : α)
    (h : dictMem k d = false) : dictErase k (dictInsert k v d) = d := by
  rw [dictInsert_of_not_mem v h, dictErase_append_singleton v h]

theorem mem_dictInsert_iff {α : Type} {k : Key} {d : List (Key × α)} {v : α}
    {e : Key × α} (h : dictMem k d = false) :
    e ∈ dictInsert k v d ↔ e ∈ d ∨ e = (k, v) := by
  rw [dictInsert_of_not_mem v h]
  simp

theorem dictKeys_dictInsert {α : Type} {k : Key} {d : List (Key × α)} (v : α)
    (h : dictMem k d = false) : dictKeys (dictInsert k v d) = dictKeys d ++ [k] := by
  rw [dictInsert_of_not_mem v h]
  simp [dictKeys]

theorem dictKeys_dictInsert_nodup {α : Type} {k : Key} {d : List (Key × α)} (v : α)
    (h : dictMem k d = false) (hd : (dictKeys d).Nodup) :
    (dictKeys (dictInsert k v d)).Nodup := by
  rw [dictKeys_dictInsert v h]
  rw [dictMem_eq_false_iff_not_mem_keys] at h
  simp [List.nodup_append, hd, h]

theorem length_dictInsert {α : Type} {k : Key} {d : List (Key × α)} (v : α)
    (h : dictMem k d = false) : (dictInsert k v d).length = d.length + 1 := by
  rw [dictInsert_of_not_mem v h]
  simp

theorem dictMem_dictInsert_self {α : Type} {k : Key} {d : List (Key × α)} (v : α) :
    dictMem k (dictInsert k v d) = true := by
  induction d with
  | nil => simp [dictInsert, dictMem]
  | cons e rest ih =>
    by_cases he : e.1 = k
    · simp [dictInsert, he, dictMem]
    · simp only [dictInsert, if_neg he, dictMem, List.any_cons]
      simp only [dictMem] at ih
      simp [ih]

theorem dictMem_dictInsert_fresh {α : Type} {k : Key} {d : List (Key × α)} (v : α)
    (h : dictMem k d = false) (k' : Key) :
    dictMem k' (dictInsert k v d) = (dictMem k' d || decide (k = k')) := by
  rw [dictInsert_of_not_mem v h]
  simp [dictMem, List.any_append]

theorem dictLookup_dictInsert_self {α : Type} {k : Key} {d : List (Key × α)} (v : α) :
    dictLookup k (dictInsert k v d) = some v := by
  induction d with
  | nil => simp [dictInsert, dictLookup]
  | cons e rest ih =>
    by_cases he : e.1 = k
    · simp [dictInsert, he, dictLookup]
    · have h1 : dictInsert k v (e :: rest) = e :: dictInsert k v rest := by
        simp [dictInsert, he]
      rw [h1]
      simp only [dictLookup] at ih ⊢
      rw [List.find?_cons_of_neg _ (by simp [he])]
      exact ih

theorem dictLookup_dictInsert_ne {α : Type} {k k' : Key} {d : List (Key × α)} (v : α)
    (h : k' ≠ k) : dictLookup k' (dictInsert k v d) = dictLookup k' d := by
  induction d with
  | nil =>
    simp only [dictInsert, dictLookup]
    rw [List.find?_cons_of_neg _ (by simp [Ne.symm h])]
  | cons e rest ih =>
    by_cases he : e.1 = k
    · have h1 : dictInsert k v (e :: rest) = (k, v) :: rest := by
        simp [dictInsert, he]
      rw [h1]
      simp only [dictLookup]
      rw [List.find?_cons_of_neg _ (by simp [Ne.symm h]),
        List.find?_cons_of_neg _ (by simp [he, Ne.symm h])]
    · have h1 : dictInsert k v (e :: rest) = e :: dictInsert k v rest := by
        simp [dictInsert, he]
      rw [h1]
      by_cases he' : e.1 = k'
      · simp only [dictLookup]
        rw [List.find?_cons_of_pos _ (by simp [he']), List.find?_cons_of_pos _ (by simp [he'])]
      · simp only [dictLookup] at ih ⊢
        rw [List.find?_cons_of_neg _ (by simp [he']), List.find?_cons_of_neg _ (by simp [he'])]
        exact ih

theorem dictLookup_isSome_of_mem {α : Type} {k : Key} {d : List (Key × α)}
    (h : dictMem k d = true) : (dictLookup k d).isSome = true := by
  rcases dictMem_eq_true_iff.1 h with ⟨v, hv⟩
  have hf : (List.find? (fun e => decide (e.1 = k)) d).isSome := by
    rw [List.find?_isSome]
    exact ⟨(k, v), hv, by simp⟩
  rcases Option.isSome_iff_exists.1 hf with ⟨e, he⟩
  simp [dictLookup, he]

theorem length_filter_le_of_imp {α : Type} {p q : α → Bool}
    (h : ∀ a, q a = true → p a = true) (l : List α) :
    (l.filter q).length ≤ (l.filter p).length := by
  induction l with
  | nil => simp
  | cons a t ih =>
    by_cases hq : q a = true
    · simp only [List.filter_cons, hq, h a hq, if_pos, List.length_cons]
      exact Nat.succ_le_succ ih
    · have hq' : q a = false := Bool.eq_false_iff.2 hq
      simp only [List.filter_cons, hq']
      by_cases hp : p a = true
      · simp only [hp, if_pos, List.length_cons]
        exact Nat.le_succ_of_le ih
      · simp only [Bool.eq_false_iff.2 hp]
        exact ih

theorem length_filter_lt {α : Type} {p q : α → Bool}
    (h : ∀ a, q a = true → p a = true) {x : α} {l : List α}
    (hx : x ∈ l) (hp : p x = true) (hq : q x = false) :
    (l.filter q).length < (l.filter p).length := by
  induction l with
  | nil => cases hx
  | cons a t ih =>
    rcases List.mem_cons.1 hx with rfl | hx'
    · simp only [List.filter_cons, hq, hp, if_pos, List.length_cons]
      exact Nat.lt_succ_of_le (length_filter_le_of_imp h t)
    · by_cases hqa : q a = true
      · simp only [List.filter_cons, hqa, h a hqa, if_pos, List.length_cons]
        exact Nat.succ_lt_succ (ih hx')
      · simp only [List.filter_cons, Bool.eq_false_iff.2 hqa]
        by_cases hpa : p a = true
        · simp only [hpa, if_pos, List.length_cons]
          exact Nat.lt_succ_of_lt (ih hx')
        · simp only [Bool.eq_false_iff.2 hpa]
          exact ih hx'

theorem ucount_dictInsert_lt {vars : List Key} {asg : AsgList} {v : Key} (val : Value)
    (hv : v ∈ vars) (hmem : dictMem v asg = false) :
    ucount vars (dictInsert v val asg) < ucount vars asg := by
  apply length_filter_lt ?_ hv ?_ ?_
  · intro a ha
    rw [Bool.not_eq_true'] at ha ⊢
    rw [dictMem_dictInsert_fresh val hmem a] at ha
    exact (Bool.or_eq_false_iff.1 ha).1
  · rw [Bool.not_eq_true', hmem]
  · rw [dictMem_dictInsert_fresh val hmem v]
    simp

theorem ucount_nil (vars : List Key) : ucount vars [] = vars.length := by
  simp [ucount, unassignedList, dictMem]

theorem unassigned_head {vars : List Key} {asg : AsgList} {v : Key} {rest : List Key}
    (h : unassignedList vars asg = v :: rest) : v ∈ vars ∧ dictMem v asg = false := by
  have hv : v ∈ unassignedList vars asg := by rw [h]; exact List.mem_cons_self v rest
  have hm := List.mem_filter.1 hv
  refine ⟨hm.1, ?_⟩
  simpa using hm.2

theorem nodup_subset_length {α : Type} {l1 l2 : List α}
    (h1 : l1.Nodup) (hsub : l1 ⊆ l2) : l1.length ≤ l2.length :=
  (h1.subperm hsub).length_le

theorem scanNoDup_eq_true_iff {α β : Type} [DecidableEq β] (f : α → β) :
    ∀ (l : List α) (seen : List β),
      scanNoDup f seen l = true ↔ (l.map f).Nodup ∧ ∀ x ∈ l, f x ∉ seen := by
  intro l
  induction l with
  | nil => intro seen; simp [scanNoDup]
  | cons x t ih =>
    intro seen
    by_cases hx : f x ∈ seen
    · constructor
      · intro h
        rw [scanNoDup, if_pos hx] at h
        cases h
      · rintro ⟨-, hall⟩
        exact absurd hx (hall x (List.mem_cons_self x t))
    · rw [scanNoDup, if_neg hx, ih (f x :: seen)]
      simp only [List.map_cons, List.nodup_cons, List.mem_cons, List.mem_map]
      constructor
      · rintro ⟨hnd, hall⟩
        refine ⟨⟨?_, hnd⟩, ?_⟩
        · rintro ⟨y, hy, hxy⟩
          exact (hall y hy) (Or.inl hxy)
        · rintro y (rfl | hy)
          · exact hx
          · intro hb
            exact (hall y hy) (Or.inr hb)
      · rintro ⟨⟨hnx, hnd⟩, hall⟩
        refine ⟨hnd, fun y hy => ?_⟩
        rintro (heq | hmem)
        · exact hnx ⟨y, hy, heq⟩
        · exact (hall y (Or.inr hy)) hmem

theorem ggPair_of_findSubject {data : InputData} {e : Key × Value} {s : Subject}
    (h : findSubject data e.1.1 = some s) :
    ggPair data e = (e.2.timeSlot, s.groupId) := by
  simp [ggPair, subjGroup, h]

theorem ugtGo_cons_none {data : InputData} {seen : List (String × String)}
    {e : Key × Value} {t : AsgList} (hf : findSubject data e.1.1 = none) :
    ugtGo data seen (e :: t) = none := by
  rw [ugtGo, hf]

theorem ugtGo_cons_some {data : InputData} {seen : List (String × String)}
    {e : Key × Value} {t : AsgList} {s : Subject} (hf : findSubject data e.1.1 = some s) :
    ugtGo data seen (e :: t) =
      if (e.2.timeSlot, s.groupId) ∈ seen then some false
      else ugtGo data ((e.2.timeSlot, s.groupId) :: seen) t := by
  rw [ugtGo, hf]

theorem ugtGo_eq_some_true_iff (data : InputData) :
    ∀ (l : AsgList) (seen : List (String × String)),
      ugtGo data seen l = some true ↔
        (∀ e ∈ l, (findSubject data e.1.1).isSome = true) ∧
          (l.map (ggPair data)).Nodup ∧ ∀ e ∈ l, ggPair data e ∉ seen := by
  intro l
  induction l with
  | nil => intro seen; simp [ugtGo]
  | cons e t ih =>
    intro seen
    cases hf : findSubject data e.1.1 with
    | none =>
      constructor
      · intro h
        rw [ugtGo_cons_none hf] at h
        cases h
      · rintro ⟨hall, -⟩
        have := hall e (List.mem_cons_self e t)
        rw [hf] at this
        cases this
    | some s =>
      have hgg := ggPair_of_findSubject hf
      by_cases hmem : (e.2.timeSlot, s.groupId) ∈ seen
      · constructor
        · intro h
          rw [ugtGo_cons_some hf, if_pos hmem] at h
          cases h
        · rintro ⟨-, -, hall⟩
          have := hall e (List.mem_cons_self e t)
          rw [hgg] at this
          exact absurd hmem this
      · rw [ugtGo_cons_some hf, if_neg hmem, ih ((e.2.timeSlot, s.groupId) :: seen)]
        simp only [List.map_cons, List.nodup_cons, List.mem_cons, List.mem_map, hgg]
        constructor
        · rintro ⟨hsome, hnd, hall⟩
          refine ⟨?_, ⟨?_, hnd⟩, ?_⟩
          · rintro e' (rfl | he')
            · rw [hf]; rfl
            · exact hsome e' he'
          · rintro ⟨y, hy, hxy⟩
            have := hall y hy
            exact this (Or.inl hxy)
          · rintro y (rfl | hy)
            · rw [hgg]; exact hmem
            · intro hb
              have := hall y hy
              exact this (Or.inr hb)
        · rintro ⟨hsome, ⟨hnx, hnd⟩, hall⟩
          refine ⟨fun e' he' => hsome e' (Or.inr he'), hnd, fun y hy => ?_⟩
          rintro (heq | hb)
          · exact hnx ⟨y, hy, heq⟩
          · have := hall y (Or.inr hy)
            exact this hb

theorem ugtGo_isSome (data : InputData) :
    ∀ (l : AsgList) (seen : List (String × String)),
      (∀ e ∈ l, (findSubject data e.1.1).isSome = true) →
        ∃ b, ugtGo data seen l = some b := by
  intro l
  induction l with
  | nil => intro seen _; exact ⟨true, rfl⟩
  | cons e t ih =>
    intro seen hall
    have he := hall e (List.mem_cons_self e t)
    cases hf : findSubject data e.1.1 with
    | none => rw [hf] at he; cases he
    | some s =>
      by_cases hmem : (e.2.timeSlot, s.groupId) ∈ seen
      · exact ⟨false, by rw [ugtGo_cons_some hf, if_pos hmem]⟩
      · rcases ih ((e.2.timeSlot, s.groupId) :: seen)
          (fun e' he' => hall e' (List.mem_cons_of_mem e he')) with ⟨b, hb⟩
        exact ⟨b, by rw [ugtGo_cons_some hf, if_neg hmem]; exact hb⟩

theorem unique_time_room_eq_true_iff {asg : AsgList} :
    unique_time_room asg = true ↔ (asg.map trPair).Nodup := by
  rw [unique_time_room, scanNoDup_eq_true_iff]
  simp only [List.not_mem_nil, not_false_iff, implies_true, and_true, dictValues,
    List.map_map]
  exact Iff.rfl

theorem unique_lecturer_time_eq_true_iff {asg : AsgList} :
    unique_lecturer_time asg = true ↔ (asg.map tlPair).Nodup := by
  rw [unique_lecturer_time, scanNoDup_eq_true_iff]
  simp only [List.not_mem_nil, not_false_iff, implies_true, and_true, dictValues,
    List.map_map]
  exact Iff.rfl

theorem unique_group_time_eq_some_true_iff {data : InputData} {asg : AsgList} :
    unique_group_time data asg = some true ↔
      (∀ e ∈ asg, (findSubject data e.1.1).isSome = true) ∧
        (asg.map (ggPair data)).Nodup := by
  rw [unique_group_time, ugtGo_eq_some_true_iff]
  simp

theorem consistentB_iff {data : InputData} {asg : AsgList} :
    ConsistentB data asg ↔
      (∀ e ∈ asg, (findSubject data e.1.1).isSome = true) ∧
        (asg.map trPair).Nodup ∧ (asg.map tlPair).Nodup ∧
          (asg.map (ggPair data)).Nodup := by
  rw [ConsistentB, unique_time_room_eq_true_iff, unique_lecturer_time_eq_true_iff,
    unique_group_time_eq_some_true_iff]
  tauto

theorem consistentB_nil (data : InputData) : ConsistentB data [] :=
  ⟨rfl, rfl, rfl⟩

theorem nodup_map_of_subset {β : Type} (g : Key × Value → β) {F asg : AsgList}
    (hkeys : (dictKeys asg).Nodup) (hsub : ∀ e ∈ asg, e ∈ F)
    (hF : (F.map g).Nodup) : (asg.map g).Nodup := by
  have hnd : asg.Nodup := hkeys.of_map
  exact List.Nodup.map_on
    (fun x hx y hy hxy => List.inj_on_of_nodup_map hF (hsub x hx) (hsub y hy) hxy) hnd

theorem is_consistent_eq_some {data : InputData} {asg : AsgList} {var : Key}
    {value : Value} {b : Bool} {asg1 : AsgList}
    (h : is_consistent data asg var value = some (b, asg1)) :
    asg1 = dictErase var (dictInsert var value asg) ∧
      (b = true ↔ ConsistentB data (dictInsert var value asg)) := by
  by_cases h1 : unique_time_room (dictInsert var value asg) = true
  · by_cases h2 : unique_lecturer_time (dictInsert var value asg) = true
    · cases hg : unique_group_time data (dictInsert var value asg) with
      | none =>
        rw [is_consistent, if_pos h1, if_pos h2, hg] at h
        cases h
      | some bg =>
        cases bg with
        | false =>
          rw [is_consistent, if_pos h1, if_pos h2, hg] at h
          simp only [Option.some.injEq, Prod.mk.injEq] at h
          refine ⟨h.2.symm, ?_⟩
          constructor
          · intro hb
            rw [← h.1] at hb
            cases hb
          · rintro ⟨-, -, h3⟩
            rw [h3] at hg
            cases hg
        | true =>
          rw [is_consistent, if_pos h1, if_pos h2, hg] at h
          simp only [Option.some.injEq, Prod.mk.injEq] at h
          exact ⟨h.2.symm, by simp [← h.1, h1, h2, hg, ConsistentB]⟩
    · rw [is_consistent, if_pos h1, if_neg h2] at h
      simp only [Option.some.injEq, Prod.mk.injEq] at h
      refine ⟨h.2.symm, ?_⟩
      constructor
      · intro hb
        rw [← h.1] at hb
        cases hb
      · rintro ⟨-, hc, -⟩
        exact absurd hc h2
  · rw [is_consistent, if_neg h1] at h
    simp only [Option.some.injEq, Prod.mk.injEq] at h
    refine ⟨h.2.symm, ?_⟩
    constructor
    · intro hb
      rw [← h.1] at hb
      cases hb
    · rintro ⟨hc, -, -⟩
      exact absurd hc h1

theorem is_consistent_isSome {data : InputData} {asg : AsgList} {var : Key}
    {value : Value}
    (hs : ∀ e ∈ dictInsert var value asg, (findSubject data e.1.1).isSome = true) :
    ∃ b, is_consistent data asg var value =
      some (b, dictErase var (dictInsert var value asg)) := by
  rw [is_consistent]
  by_cases h1 : unique_time_room (dictInsert var value asg) = true
  · rw [if_pos h1]
    by_cases h2 : unique_lecturer_time (dictInsert var value asg) = true
    · rw [if_pos h2]
      rcases ugtGo_isSome data (dictInsert var value asg) [] hs with ⟨bg, hg⟩
      have hg' : unique_group_time data (dictInsert var value asg) = some bg := hg
      cases bg with
      | false => rw [hg']; exact ⟨false, rfl⟩
      | true => rw [hg']; exact ⟨true, rfl⟩
    · rw [if_neg h2]; exact ⟨false, rfl⟩
  · rw [if_neg h1]; exact ⟨false, rfl⟩

theorem is_consistent_true_of {data : InputData} {asg : AsgList} {var : Key}
    {value : Value} (h : ConsistentB data (dictInsert var value asg)) :
    is_consistent data asg var value =
      some (true, dictErase var (dictInsert var value asg)) := by
  obtain ⟨h1, h2, h3⟩ := h
  rw [is_consistent, if_pos h1, if_pos h2, h3]

theorem findSubject_isSome_of_var {data : InputData} {v : Key}
    (hv : v ∈ variablesOf data) : (findSubject data v.1).isSome = true := by
  rw [variablesOf] at hv
  rcases List.mem_flatMap.1 hv with ⟨s, hs, hmem⟩
  rcases List.mem_map.1 hmem with ⟨i, -, rfl⟩
  rw [findSubject, List.find?_isSome]
  exact ⟨s, hs, by simp⟩

theorem tryVals_nil {data : InputData} {next : AsgList → SearchRes × AsgList}
    {var : Key} {asg : AsgList} :
    tryVals data next var asg [] = (SearchRes.noSol, asg) := by
  rw [tryVals]

theorem tryVals_cons_none {data : InputData} {next : AsgList → SearchRes × AsgList}
    {var : Key} {asg : AsgList} {value : Value} {values : List Value}
    (h : is_consistent data asg var value = none) :
    tryVals data next var asg (value :: values) =
      (SearchRes.crashStop, dictInsert var value asg) := by
  rw [tryVals, h]

theorem tryVals_cons_false {data : InputData} {next : AsgList → SearchRes × AsgList}
    {var : Key} {asg asg1 : AsgList} {value : Value} {values : List Value}
    (h : is_consistent data asg var value = some (false, asg1)) :
    tryVals data next var asg (value :: values) = tryVals data next var asg1 values := by
  rw [tryVals, h]

theorem tryVals_cons_true_noSol {data : InputData} {next : AsgList → SearchRes × AsgList}
    {var : Key} {asg asg1 st : AsgList} {value : Value} {values : List Value}
    (h : is_consistent data asg var value = some (true, asg1))
    (hn : next (dictInsert var value asg1) = (SearchRes.noSol, st)) :
    tryVals data next var asg (value :: values) =
      tryVals data next var (dictErase var st) values := by
  simp only [tryVals, h, hn]

theorem tryVals_cons_true_other {data : InputData} {next : AsgList → SearchRes × AsgList}
    {var : Key} {asg asg1 : AsgList} {value : Value} {values : List Value}
    {r : SearchRes × AsgList}
    (h : is_consistent data asg var value = some (true, asg1))
    (hn : next (dictInsert var value asg1) = r) (hr : r.1 ≠ SearchRes.noSol) :
    tryVals data next var asg (value :: values) = r := by
  rcases r with ⟨res, st⟩
  simp only [tryVals, h, hn]
  cases res with
  | noSol => exact absurd rfl hr
  | sol a => rfl
  | crashIndex => rfl
  | crashKey => rfl
  | crashStop => rfl
  | outOfFuel => rfl

theorem backtrack_zero {data : InputData} {vars : List Key}
    {doms : List (Key × List Value)} {asg : AsgList} :
    backtrack data vars doms 0 asg = (SearchRes.outOfFuel, asg) := by
  rw [backtrack]

theorem backtrack_succ_base {data : InputData} {vars : List Key}
    {doms : List (Key × List Value)} {fuel : Nat} {asg : AsgList}
    (h : asg.length = vars.length) :
    backtrack data vars doms (fuel + 1) asg = (SearchRes.sol asg, asg) := by
  rw [backtrack, if_pos h]

theorem backtrack_succ_empty {data : InputData} {vars : List Key}
    {doms : List (Key × List Value)} {fuel : Nat} {asg : AsgList}
    (h : ¬asg.length = vars.length)
    (hu : vars.filter (fun v => !dictMem v asg) = []) :
    backtrack data vars doms (fuel + 1) asg = (SearchRes.crashIndex, asg) := by
  rw [backtrack, if_neg h, hu]

theorem backtrack_succ_keyerr {data : InputData} {vars : List Key}
    {doms : List (Key × List Value)} {fuel : Nat} {asg : AsgList}
    {var : Key} {rest : List Key}
    (h : ¬asg.length = vars.length)
    (hu : vars.filter (fun v => !dictMem v asg) = var :: rest)
    (hk : dictLookup var doms = none) :
    backtrack data vars doms (fuel + 1) asg = (SearchRes.crashKey, asg) := by
  rw [backtrack, if_neg h]
  simp only [hu, hk]

theorem backtrack_succ_loop {data : InputData} {vars : List Key}
    {doms : List (Key × List Value)} {fuel : Nat} {asg : AsgList}
    {var : Key} {rest : List Key} {dom : List Value}
    (h : ¬asg.length = vars.length)
    (hu : vars.filter (fun v => !dictMem v asg) = var :: rest)
    (hk : dictLookup var doms = some dom) :
    backtrack data vars doms (fuel + 1) asg =
      tryVals data (fun a => backtrack data vars doms fuel a) var asg dom := by
  rw [backtrack, if_neg h]
  simp only [hu, hk]

theorem tryVals_restore {data : InputData} {next : AsgList → SearchRes × AsgList}
    {var : Key}
    (hnext : ∀ asg st, next asg = (SearchRes.noSol, st) → st = asg) :
    ∀ (values : List Value) (asg st : AsgList), dictMem var asg = false →
      tryVals data next var asg values = (SearchRes.noSol, st) → st = asg := by
  intro values
  induction values with
  | nil =>
    intro asg st hmem h
    rw [tryVals_nil] at h
    simp only [Prod.mk.injEq, true_and] at h
    exact h.symm
  | cons value values ih =>
    intro asg st hmem h
    cases hic : is_consistent data asg var value with
    | none =>
      rw [tryVals_cons_none hic] at h
      simp at h
    | some p =>
      rcases p with ⟨b, asg1⟩
      have hasg1 : asg1 = asg := by
        rw [(is_consistent_eq_some hic).1, dictErase_dictInsert value hmem]
      subst hasg1
      cases b with
      | false =>
        rw [tryVals_cons_false hic] at h
        exact ih asg1 st hmem h
      | true =>
        rcases hn : next (dictInsert var value asg1) with ⟨res, st1⟩
        cases res with
        | noSol =>
          have hst1 : st1 = dictInsert var value asg1 := hnext _ _ hn
          rw [tryVals_cons_true_noSol hic hn] at h
          have herase : dictErase var st1 = asg1 := by
            rw [hst1, dictErase_dictInsert value hmem]
          rw [herase] at h
          exact ih asg1 st hmem h
        | sol a => rw [tryVals_cons_true_other hic hn (by simp)] at h; simp at h
        | crashIndex => rw [tryVals_cons_true_other hic hn (by simp)] at h; simp at h
        | crashKey => rw [tryVals_cons_true_other hic hn (by simp)] at h; simp at h
        | crashStop => rw [tryVals_cons_true_other hic hn (by simp)] at h; simp at h
        | outOfFuel => rw [tryVals_cons_true_other hic hn (by simp)] at h; simp at h

theorem backtrack_restore {data : InputData} {vars : List Key}
    {doms : List (Key × List Value)} :
    ∀ (fuel : Nat) (asg st : AsgList),
      backtrack data vars doms fuel asg = (SearchRes.noSol, st) → st = asg := by
  intro fuel
  induction fuel with
  | zero =>
    intro asg st h
    rw [backtrack_zero] at h
    simp at h
  | succ fuel ih =>
    intro asg st h
    by_cases hb : asg.length = vars.length
    · rw [backtrack_succ_base hb] at h; simp at h
    · cases hu : vars.filter (fun v => !dictMem v asg) with
      | nil => rw [backtrack_succ_empty hb hu] at h; simp at h
      | cons var rest =>
        cases hk : dictLookup var doms with
        | none => rw [backtrack_succ_keyerr hb hu hk] at h; simp at h
        | some dom =>
          rw [backtrack_succ_loop hb hu hk] at h
          have hmem := (unassigned_head hu).2
          exact tryVals_restore (fun a st' hn => ih a st' hn) dom asg st hmem h

theorem tryVals_no_oof {data : InputData} {vars : List Key}
    {next : AsgList → SearchRes × AsgList} {var : Key} {asg : AsgList}
    (hmem : dictMem var asg = false) (hvar : var ∈ vars)
    (hnext : ∀ asg', ucount vars asg' < ucount vars asg →
      (next asg').1 ≠ SearchRes.outOfFuel)
    (hres : ∀ asg' st, next asg' = (SearchRes.noSol, st) → st = asg') :
    ∀ values, (tryVals data next var asg values).1 ≠ SearchRes.outOfFuel := by
  intro values
  induction values with
  | nil => rw [tryVals_nil]; simp
  | cons value values ih =>
    cases hic : is_consistent data asg var value with
    | none => rw [tryVals_cons_none hic]; simp
    | some p =>
      rcases p with ⟨b, asg1⟩
      have hasg1 : asg1 = asg := by
        rw [(is_consistent_eq_some hic).1, dictErase_dictInsert value hmem]
      subst hasg1
      cases b with
      | false => rw [tryVals_cons_false hic]; exact ih
      | true =>
        rcases hn : next (dictInsert var value asg1) with ⟨res, st1⟩
        have hlt : ucount vars (dictInsert var value asg1) < ucount vars asg1 :=
          ucount_dictInsert_lt value hvar hmem
        cases res with
        | noSol =>
          have hst1 : st1 = dictInsert var value asg1 := hres _ _ hn
          rw [tryVals_cons_true_noSol hic hn, hst1, dictErase_dictInsert value hmem]
          exact ih
        | outOfFuel =>
          have := hnext _ hlt
          rw [hn] at this
          simp at this
        | sol a => rw [tryVals_cons_true_other hic hn (by simp)]; simp
        | crashIndex => rw [tryVals_cons_true_other hic hn (by simp)]; simp
        | crashKey => rw [tryVals_cons_true_other hic hn (by simp)]; simp
        | crashStop => rw [tryVals_cons_true_other hic hn (by simp)]; simp

theorem backtrack_no_oof {data : InputData} {vars : List Key}
    {doms : List (Key × List Value)} :
    ∀ (fuel : Nat) (asg : AsgList), ucount vars asg < fuel →
      (backtrack data vars doms fuel asg).1 ≠ SearchRes.outOfFuel := by
  intro fuel
  induction fuel with
  | zero => intro asg h; exact absurd h (Nat.not_lt_zero _)
  | succ fuel ih =>
    intro asg hfuel
    by_cases hb : asg.length = vars.length
    · rw [backtrack_succ_base hb]; simp
    · cases hu : vars.filter (fun v => !dictMem v asg) with
      | nil => rw [backtrack_succ_empty hb hu]; simp
      | cons var rest =>
        cases hk : dictLookup var doms with
        | none => rw [backtrack_succ_keyerr hb hu hk]; simp
        | some dom =>
          rw [backtrack_succ_loop hb hu hk]
          obtain ⟨hvar, hmem⟩ := unassigned_head hu
          refine tryVals_no_oof hmem hvar ?_ ?_ dom
          · intro asg' hlt
            exact ih asg' (by omega)
          · exact fun asg' st hn => backtrack_restore fuel asg' st hn

theorem tryVals_sol {data : InputData} {vars : List Key} {doms : List (Key × List Value)}
    {next : AsgList → SearchRes × AsgList} {var : Key} {asg : AsgList}
    (hmem : dictMem var asg = false) (hvar : var ∈ vars)
    (hnext : ∀ asg' a st, ReachInv data vars doms asg' →
      next asg' = (SearchRes.sol a, st) →
        ReachInv data vars doms a ∧ a.length = vars.length)
    (hres : ∀ asg' st, next asg' = (SearchRes.noSol, st) → st = asg')
    (hInv : ReachInv data vars doms asg) :
    ∀ values, (∀ val ∈ values, ∃ dom0, dictLookup var doms = some dom0 ∧ val ∈ dom0) →
      ∀ a st, tryVals data next var asg values = (SearchRes.sol a, st) →
        ReachInv data vars doms a ∧ a.length = vars.length := by
  intro values
  induction values with
  | nil =>
    intro _ a st h
    rw [tryVals_nil] at h
    simp at h
  | cons value values ih =>
    intro hvals a st h
    cases hic : is_consistent data asg var value with
    | none =>
      rw [tryVals_cons_none hic] at h
      simp at h
    | some p =>
      rcases p with ⟨b, asg1⟩
      have hasg1 : asg1 = asg := by
        rw [(is_consistent_eq_some hic).1, dictErase_dictInsert value hmem]
      subst hasg1
      cases b with
      | false =>
        rw [tryVals_cons_false hic] at h
        exact ih (fun v hv => hvals v (List.mem_cons_of_mem _ hv)) a st h
      | true =>
        have hcons : ConsistentB data (dictInsert var value asg1) :=
          ((is_consistent_eq_some hic).2).1 rfl
        have hInv' : ReachInv data vars doms (dictInsert var value asg1) := by
          obtain ⟨hk, hv, hd, -⟩ := hInv
          refine ⟨dictKeys_dictInsert_nodup value hmem hk, ?_, ?_, hcons⟩
          · intro e he
            rcases (mem_dictInsert_iff hmem).1 he with he' | rfl
            · exact hv e he'
            · exact hvar
          · intro e he
            rcases (mem_dictInsert_iff hmem).1 he with he' | rfl
            · exact hd e he'
            · exact hvals value (List.mem_cons_self _ _)
        rcases hn : next (dictInsert var value asg1) with ⟨res, st1⟩
        cases res with
        | sol a' =>
          rw [tryVals_cons_true_other hic hn (by simp)] at h
          simp only [Prod.mk.injEq, SearchRes.sol.injEq] at h
          obtain ⟨rfl, -⟩ := h
          exact hnext _ _ _ hInv' hn
        | noSol =>
          have hst1 : st1 = dictInsert var value asg1 := hres _ _ hn
          rw [tryVals_cons_true_noSol hic hn] at h
          rw [hst1, dictErase_dictInsert value hmem] at h
          exact ih (fun v hv => hvals v (List.mem_cons_of_mem _ hv)) a st h
        | crashIndex => rw [tryVals_cons_true_other hic hn (by simp)] at h; simp at h
        | crashKey => rw [tryVals_cons_true_other hic hn (by simp)] at h; simp at h
        | crashStop => rw [tryVals_cons_true_other hic hn (by simp)] at h; simp at h
        | outOfFuel => rw [tryVals_cons_true_other hic hn (by simp)] at h; simp at h

theorem backtrack_sol {data : InputData} {vars : List Key}
    {doms : List (Key × List Value)} :
    ∀ (fuel : Nat) (asg : AsgList) (a st : AsgList), ReachInv data vars doms asg →
      backtrack data vars doms fuel asg = (SearchRes.sol a, st) →
        ReachInv data vars doms a ∧ a.length = vars.length := by
  intro fuel
  induction fuel with
  | zero =>
    intro asg a st _ h
    rw [backtrack_zero] at h
    simp at h
  | succ fuel ih =>
    intro asg a st hInv h
    by_cases hb : asg.length = vars.length
    · rw [backtrack_succ_base hb] at h
      simp only [Prod.mk.injEq, SearchRes.sol.injEq] at h
      obtain ⟨rfl, -⟩ := h
      exact ⟨hInv, hb⟩
    · cases hu : vars.filter (fun v => !dictMem v asg) with
      | nil => rw [backtrack_succ_empty hb hu] at h; simp at h
      | cons var rest =>
        cases hk : dictLookup var doms with
        | none => rw [backtrack_succ_keyerr hb hu hk] at h; simp at h
        | some dom =>
          rw [backtrack_succ_loop hb hu hk] at h
          obtain ⟨hvar, hmem⟩ := unassigned_head hu
          exact tryVals_sol hmem hvar
            (fun asg' a' st' hi hn => ih asg' a' st' hi hn)
            (fun asg' st' hn => backtrack_restore fuel asg' st' hn)
            hInv dom (fun val hval => ⟨dom, hk, hval⟩) a st h

theorem tryVals_progress {data : InputData} {vars : List Key}
    {next : AsgList → SearchRes × AsgList}
    {var : Key} {asg : AsgList}
    (hmem : dictMem var asg = false) (hvar : var ∈ vars)
    (hsubjAll : ∀ w ∈ vars, (findSubject data w.1).isSome = true)
    (hkeys : (dictKeys asg).Nodup) (hksub : ∀ e ∈ asg, e.1 ∈ vars)
    (hnext : ∀ asg', (dictKeys asg').Nodup → (∀ e ∈ asg', e.1 ∈ vars) →
      ucount vars asg' < ucount vars asg →
        (next asg').1 = SearchRes.noSol ∨ ∃ a st, next asg' = (SearchRes.sol a, st))
    (hres : ∀ asg' st, next asg' = (SearchRes.noSol, st) → st = asg') :
    ∀ values, (tryVals data next var asg values).1 = SearchRes.noSol ∨
      ∃ a st, tryVals data next var asg values = (SearchRes.sol a, st) := by
  intro values
  induction values with
  | nil => left; rw [tryVals_nil]
  | cons value values ih =>
    have hs : ∀ e ∈ dictInsert var value asg, (findSubject data e.1.1).isSome = true := by
      intro e he
      rcases (mem_dictInsert_iff hmem).1 he with he' | rfl
      · exact hsubjAll e.1 (hksub e he')
      · exact hsubjAll var hvar
    rcases is_consistent_isSome hs with ⟨b, hic⟩
    rw [dictErase_dictInsert value hmem] at hic
    cases b with
    | false =>
      rw [tryVals_cons_false hic]
      exact ih
    | true =>
      have hnd' : (dictKeys (dictInsert var value asg)).Nodup :=
        dictKeys_dictInsert_nodup value hmem hkeys
      have hsub' : ∀ e ∈ dictInsert var value asg, e.1 ∈ vars := by
        intro e he
        rcases (mem_dictInsert_iff hmem).1 he with he' | rfl
        · exact hksub e he'
        · exact hvar
      have hlt : ucount vars (dictInsert var value asg) < ucount vars asg :=
        ucount_dictInsert_lt value hvar hmem
      rcases hn : next (dictInsert var value asg) with ⟨res, st1⟩
      have hprog := hnext _ hnd' hsub' hlt
      rw [hn] at hprog
      cases res with
      | noSol =>
        have hst1 : st1 = dictInsert var value asg := hres _ _ hn
        rw [tryVals_cons_true_noSol hic hn, hst1, dictErase_dictInsert value hmem]
        exact ih
      | sol a =>
        right
        exact ⟨a, st1, tryVals_cons_true_other hic hn (by simp)⟩
      | crashIndex =>
        rcases hprog with h1 | ⟨a, st', h2⟩
        · simp at h1
        · simp at h2
      | crashKey =>
        rcases hprog with h1 | ⟨a, st', h2⟩
        · simp at h1
        · simp at h2
      | crashStop =>
        rcases hprog with h1 | ⟨a, st', h2⟩
        · simp at h1
        · simp at h2
      | outOfFuel =>
        rcases hprog with h1 | ⟨a, st', h2⟩
        · simp at h1
        · simp at h2

theorem unassigned_ne_nil {vars : List Key} {asg : AsgList}
    (hvars : vars.Nodup) (hlen : asg.length < vars.length) :
    vars.filter (fun v => !dictMem v asg) ≠ [] := by
  intro hu
  have hall : ∀ w ∈ vars, dictMem w asg = true := by
    intro w hw
    simpa using List.filter_eq_nil_iff.1 hu w hw
  have hsub2 : vars ⊆ dictKeys asg := fun w hw => by
    rcases dictMem_eq_true_iff.1 (hall w hw) with ⟨v, hv⟩
    exact mem_dictKeys_iff.2 ⟨v, hv⟩
  have h1 : vars.length ≤ (dictKeys asg).length := nodup_subset_length hvars hsub2
  have h3 : (dictKeys asg).length = asg.length := by simp [dictKeys]
  omega

theorem keys_length_le {vars : List Key} {asg : AsgList}
    (hkeys : (dictKeys asg).Nodup) (hksub : ∀ e ∈ asg, e.1 ∈ vars) :
    asg.length ≤ vars.length := by
  have h2 : (dictKeys asg).length ≤ vars.length :=
    nodup_subset_length hkeys (fun k hk => by
      rcases mem_dictKeys_iff.1 hk with ⟨v, hv⟩
      exact hksub (k, v) hv)
  have h3 : (dictKeys asg).length = asg.length := by simp [dictKeys]
  omega

theorem backtrack_progress {data : InputData} {vars : List Key}
    {doms : List (Key × List Value)}
    (hvars : vars.Nodup)
    (hsubjAll : ∀ w ∈ vars, (findSubject data w.1).isSome = true)
    (hdoms : ∀ v ∈ vars, (dictLookup v doms).isSome = true) :
    ∀ (fuel : Nat) (asg : AsgList), ucount vars asg < fuel →
      (dictKeys asg).Nodup → (∀ e ∈ asg, e.1 ∈ vars) →
        (backtrack data vars doms fuel asg).1 = SearchRes.noSol ∨
          ∃ a st, backtrack data vars doms fuel asg = (SearchRes.sol a, st) := by
  intro fuel
  induction fuel with
  | zero => intro asg h _ _; exact absurd h (Nat.not_lt_zero _)
  | succ fuel ih =>
    intro asg hfuel hkeys hksub
    by_cases hb : asg.length = vars.length
    · right
      exact ⟨asg, asg, backtrack_succ_base hb⟩
    · cases hu : vars.filter (fun v => !dictMem v asg) with
      | nil =>
        exfalso
        have hle : asg.length ≤ vars.length := keys_length_le hkeys hksub
        exact unassigned_ne_nil hvars (by omega) hu
      | cons var rest =>
        cases hk : dictLookup var doms with
        | none =>
          exfalso
          have := hdoms var (unassigned_head hu).1
          rw [hk] at this
          cases this
        | some dom =>
          rw [backtrack_succ_loop hb hu hk]
          obtain ⟨hvar, hmem⟩ := unassigned_head hu
          exact tryVals_progress hmem hvar hsubjAll hkeys hksub
            (fun asg' h1 h2 hlt => ih asg' (by omega) h1 h2)
            (fun asg' st' hn => backtrack_restore fuel asg' st' hn) dom

theorem consistentB_of_subset {data : InputData} {F asg : AsgList}
    (hkeys : (dictKeys asg).Nodup) (hsub : ∀ e ∈ asg, e ∈ F)
    (hFc : ConsistentB data F) : ConsistentB data asg := by
  rcases consistentB_iff.1 hFc with ⟨hFs, hn1, hn2, hn3⟩
  exact consistentB_iff.2 ⟨fun e he => hFs e (hsub e he),
    nodup_map_of_subset trPair hkeys hsub hn1,
    nodup_map_of_subset tlPair hkeys hsub hn2,
    nodup_map_of_subset (ggPair data) hkeys hsub hn3⟩

theorem tryVals_complete {data : InputData} {vars : List Key}
    {next : AsgList → SearchRes × AsgList} {var : Key} {asg F : AsgList}
    {valStar : Value}
    (hmem : dictMem var asg = false) (hvar : var ∈ vars)
    (hsubjAll : ∀ w ∈ vars, (findSubject data w.1).isSome = true)
    (hkeys : (dictKeys asg).Nodup) (hsubF : ∀ e ∈ asg, e ∈ F)
    (hFkeys : dictKeys F = vars)
    (hFc : ConsistentB data F)
    (hstarF : (var, valStar) ∈ F)
    (hnextC : ∀ asg', (dictKeys asg').Nodup → (∀ e ∈ asg', e ∈ F) →
      ucount vars asg' < ucount vars asg → ∃ a st, next asg' = (SearchRes.sol a, st))
    (hnextP : ∀ asg', (dictKeys asg').Nodup → (∀ e ∈ asg', e.1 ∈ vars) →
      ucount vars asg' < ucount vars asg →
        (next asg').1 = SearchRes.noSol ∨ ∃ a st, next asg' = (SearchRes.sol a, st))
    (hres : ∀ asg' st, next asg' = (SearchRes.noSol, st) → st = asg') :
    ∀ values, valStar ∈ values →
      ∃ a st, tryVals data next var asg values = (SearchRes.sol a, st) := by
  have hksub : ∀ e ∈ asg, e.1 ∈ vars := by
    intro e he
    rw [← hFkeys]
    exact mem_dictKeys_iff.2 ⟨e.2, by rw [Prod.mk.eta]; exact hsubF e he⟩
  intro values
  induction values with
  | nil => intro h; cases h
  | cons value values ih =>
    intro hstar
    have hnd' : (dictKeys (dictInsert var value asg)).Nodup :=
      dictKeys_dictInsert_nodup value hmem hkeys
    have hs : ∀ e ∈ dictInsert var value asg, (findSubject data e.1.1).isSome = true := by
      intro e he
      rcases (mem_dictInsert_iff hmem).1 he with he' | rfl
      · exact hsubjAll e.1 (hksub e he')
      · exact hsubjAll var hvar
    by_cases heq : value = valStar
    · subst heq
      have hsubI : ∀ e ∈ dictInsert var value asg, e ∈ F := by
        intro e he
        rcases (mem_dictInsert_iff hmem).1 he with he' | rfl
        · exact hsubF e he'
        · exact hstarF
      have hconsI : ConsistentB data (dictInsert var value asg) :=
        consistentB_of_subset hnd' hsubI hFc
      have hic := is_consistent_true_of hconsI
      rw [dictErase_dictInsert value hmem] at hic
      rcases hnextC (dictInsert var value asg) hnd' hsubI
        (ucount_dictInsert_lt value hvar hmem) with ⟨a, st, hn⟩
      exact ⟨a, st, tryVals_cons_true_other hic hn (by simp)⟩
    · have hstar' : valStar ∈ values := by
        rcases List.mem_cons.1 hstar with h | h
        · exact absurd h.symm heq
        · exact h
      rcases is_consistent_isSome hs with ⟨b, hic⟩
      rw [dictErase_dictInsert value hmem] at hic
      cases b with
      | false =>
        rw [tryVals_cons_false hic]
        exact ih hstar'
      | true =>
        have hsub' : ∀ e ∈ dictInsert var value asg, e.1 ∈ vars := by
          intro e he
          rcases (mem_dictInsert_iff hmem).1 he with he' | rfl
          · exact hksub e he'
          · exact hvar
        rcases hn : next (dictInsert var value asg) with ⟨res, st1⟩
        have hprog := hnextP _ hnd' hsub' (ucount_dictInsert_lt value hvar hmem)
        rw [hn] at hprog
        cases res with
        | sol a => exact ⟨a, st1, tryVals_cons_true_other hic hn (by simp)⟩
        | noSol =>
          have hst1 : st1 = dictInsert var value asg := hres _ _ hn
          rw [tryVals_cons_true_noSol hic hn, hst1, dictErase_dictInsert value hmem]
          exact ih hstar'
        | crashIndex =>
          rcases hprog with h1 | ⟨a, st', h2⟩
          · simp at h1
          · simp at h2
        | crashKey =>
          rcases hprog with h1 | ⟨a, st', h2⟩
          · simp at h1
          · simp at h2
        | crashStop =>
          rcases hprog with h1 | ⟨a, st', h2⟩
          · simp at h1
          · simp at h2
        | outOfFuel =>
          rcases hprog with h1 | ⟨a, st', h2⟩
          · simp at h1
          · simp at h2

theorem backtrack_complete {data : InputData} {vars : List Key}
    {doms : List (Key × List Value)} {F : AsgList}
    (hvars : vars.Nodup)
    (hsubjAll : ∀ w ∈ vars, (findSubject data w.1).isSome = true)
    (hdoms : ∀ v ∈ vars, (dictLookup v doms).isSome = true)
    (hFkeys : dictKeys F = vars)
    (hFdom : ∀ e ∈ F, ∃ dom0, dictLookup e.1 doms = some dom0 ∧ e.2 ∈ dom0)
    (hFc : ConsistentB data F) :
    ∀ (fuel : Nat) (asg : AsgList), ucount vars asg < fuel →
      (dictKeys asg).Nodup → (∀ e ∈ asg, e ∈ F) →
        ∃ a st, backtrack data vars doms fuel asg = (SearchRes.sol a, st) := by
  intro fuel
  induction fuel with
  | zero => intro asg h _ _; exact absurd h (Nat.not_lt_zero _)
  | succ fuel ih =>
    intro asg hfuel hkeys hsubF
    have hksub : ∀ e ∈ asg, e.1 ∈ vars := by
      intro e he
      rw [← hFkeys]
      exact mem_dictKeys_iff.2 ⟨e.2, by rw [Prod.mk.eta]; exact hsubF e he⟩
    by_cases hb : asg.length = vars.length
    · exact ⟨asg, asg, backtrack_succ_base hb⟩
    · cases hu : vars.filter (fun v => !dictMem v asg) with
      | nil =>
        exfalso
        have hle : asg.length ≤ vars.length := keys_length_le hkeys hksub
        exact unassigned_ne_nil hvars (by omega) hu
      | cons var rest =>
        obtain ⟨hvar, hmem⟩ := unassigned_head hu
        cases hk : dictLookup var doms with
        | none =>
          exfalso
          have := hdoms var hvar
          rw [hk] at this
          cases this
        | some dom =>
          have hvk : var ∈ dictKeys F := by rw [hFkeys]; exact hvar
          rcases mem_dictKeys_iff.1 hvk with ⟨valStar, hstarF⟩
          rcases hFdom (var, valStar) hstarF with ⟨dom0, hlk, hmemdom⟩
          have hdom0 : dom0 = dom := by
            rw [hk] at hlk
            cases hlk
            rfl
          rw [hdom0] at hmemdom
          rw [backtrack_succ_loop hb hu hk]
          exact tryVals_complete hmem hvar hsubjAll hkeys hsubF hFkeys hFc hstarF
            (fun asg' h1 h2 hlt => ih asg' (by omega) h1 h2)
            (fun asg' h1 h2 hlt =>
              backtrack_progress hvars hsubjAll hdoms fuel asg' (by omega) h1 h2)
            (fun asg' st' hn => backtrack_restore fuel asg' st' hn) dom hmemdom

theorem sessionDomainAux_eq_of_findGroup {data : InputData} {s : Subject} {g : Group}
    (hg : findGroup data s.groupId = some g) :
    ∀ l, sessionDomainAux data s l = some (l.filterMap fun p =>
      if p.2.2.id ∈ s.suitedLecturers ∧ g.size ≤ p.2.1.capacity
      then some (Value.mk p.1 p.2.1.id p.2.2.id) else none) := by
  intro l
  induction l with
  | nil => simp [sessionDomainAux]
  | cons p rest ih =>
    rcases p with ⟨t, r, l'⟩
    by_cases hl : l'.id ∈ s.suitedLecturers
    · by_cases hc : g.size ≤ r.capacity
      · simp [sessionDomainAux, hl, hg, ih, List.filterMap_cons, hc]
      · simp [sessionDomainAux, hl, hg, ih, List.filterMap_cons, hc]
    · simp [sessionDomainAux, hl, List.filterMap_cons, ih]

theorem filterMap_lecturers (t : String) (r : Room) (ls : List Lecturer)
    (s : Subject) (g : Group) :
    ((ls.map fun l => (t, r, l)).filterMap fun p =>
      if p.2.2.id ∈ s.suitedLecturers ∧ g.size ≤ p.2.1.capacity
      then some (Value.mk p.1 p.2.1.id p.2.2.id) else none)
    = (ls.filter fun l =>
        decide (l.id ∈ s.suitedLecturers) && decide (g.size ≤ r.capacity)).map
          fun l => Value.mk t r.id l.id := by
  induction ls with
  | nil => simp
  | cons l ls ih =>
    by_cases hl : l.id ∈ s.suitedLecturers
    · by_cases hc : g.size ≤ r.capacity
      · simp [List.filterMap_cons, List.filter_cons, hl, hc, ih]
      · simp [List.filterMap_cons, List.filter_cons, hl, hc, ih]
    · simp [List.filterMap_cons, List.filter_cons, hl, ih]

theorem filterMap_rooms (t : String) (rs : List Room) (ls : List Lecturer)
    (s : Subject) (g : Group) :
    ((rs.flatMap fun r => ls.map fun l => (t, r, l)).filterMap fun p =>
      if p.2.2.id ∈ s.suitedLecturers ∧ g.size ≤ p.2.1.capacity
      then some (Value.mk p.1 p.2.1.id p.2.2.id) else none)
    = rs.flatMap fun r =>
        (ls.filter fun l =>
          decide (l.id ∈ s.suitedLecturers) && decide (g.size ≤ r.capacity)).map
            fun l => Value.mk t r.id l.id := by
  induction rs with
  | nil => simp
  | cons r rs ih =>
    simp only [List.flatMap_cons, List.filterMap_append, ih, filterMap_lecturers]

theorem specSessionDomain_eq (data : InputData) (s : Subject) (g : Group) :
    specSessionDomain data s g = (allTriples data).filterMap fun p =>
      if p.2.2.id ∈ s.suitedLecturers ∧ g.size ≤ p.2.1.capacity
      then some (Value.mk p.1 p.2.1.id p.2.2.id) else none := by
  rw [specSessionDomain, allTriples]
  induction data.timeSlots with
  | nil => simp
  | cons t ts ih =>
    simp only [List.flatMap_cons, List.filterMap_append, ih, filterMap_rooms]

theorem sessionDomain_eq_spec {data : InputData} {s : Subject} {g : Group}
    (hg : findGroup data s.groupId = some g) :
    sessionDomain data s = some (specSessionDomain data s g) := by
  rw [sessionDomain, sessionDomainAux_eq_of_findGroup hg, specSessionDomain_eq]

theorem mem_allTriples {data : InputData} {t : String} {r : Room} {l : Lecturer} :
    (t, r, l) ∈ allTriples data ↔
      t ∈ data.timeSlots ∧ r ∈ data.rooms ∧ l ∈ data.lecturers := by
  simp only [allTriples, List.mem_flatMap, List.mem_map]
  constructor
  · rintro ⟨t', ht', r', hr', l', hl', heq⟩
    obtain ⟨rfl, rfl, rfl⟩ := Prod.mk.injEq .. ▸ heq
    exact ⟨ht', hr', hl'⟩
  · rintro ⟨ht, hr, hl⟩
    exact ⟨t, ht, r, hr, l, hl, rfl⟩

theorem sessionDomainAux_of_unsuited {data : InputData} {s : Subject} :
    ∀ l, (∀ p ∈ l, p.2.2.id ∉ s.suitedLecturers) → sessionDomainAux data s l = some [] := by
  intro l
  induction l with
  | nil => intro _; rfl
  | cons p rest ih =>
    intro hall
    rcases p with ⟨t, r, l'⟩
    have hl : l'.id ∉ s.suitedLecturers := hall (t, r, l') (List.mem_cons_self _ _)
    simp only [sessionDomainAux, if_neg hl]
    exact ih fun q hq => hall q (List.mem_cons_of_mem _ hq)

theorem sessionDomain_empty_of_unsuited {data : InputData} {s : Subject}
    (hsuit : ∀ l ∈ data.lecturers, l.id ∉ s.suitedLecturers) :
    sessionDomain data s = some [] := by
  apply sessionDomainAux_of_unsuited
  rintro ⟨t, r, l⟩ hp
  exact hsuit l (mem_allTriples.1 hp).2.2

theorem sessionDomainAux_none {data : InputData} {s : Subject}
    (hg : findGroup data s.groupId = none) :
    ∀ l, (∃ p ∈ l, p.2.2.id ∈ s.suitedLecturers) → sessionDomainAux data s l = none := by
  intro l
  induction l with
  | nil => rintro ⟨p, hp, -⟩; cases hp
  | cons p rest ih =>
    rintro ⟨q, hq, hsuit⟩
    rcases p with ⟨t, r, l'⟩
    by_cases hl : l'.id ∈ s.suitedLecturers
    · simp [sessionDomainAux, hl, hg]
    · have hq' : q ∈ rest := by
        rcases List.mem_cons.1 hq with rfl | hq'
        · exact absurd hsuit hl
        · exact hq'
      simp only [sessionDomainAux, if_neg hl]
      exact ih ⟨q, hq', hsuit⟩

theorem sessionDomain_none {data : InputData} {s : Subject}
    (hg : findGroup data s.groupId = none) (ht : data.timeSlots ≠ [])
    (hr : data.rooms ≠ []) (hl : ∃ l ∈ data.lecturers, l.id ∈ s.suitedLecturers) :
    sessionDomain data s = none := by
  rcases List.exists_mem_of_ne_nil _ ht with ⟨t, htm⟩
  rcases List.exists_mem_of_ne_nil _ hr with ⟨r, hrm⟩
  rcases hl with ⟨l, hlm, hsuit⟩
  exact sessionDomainAux_none hg _ ⟨(t, r, l), mem_allTriples.2 ⟨htm, hrm, hlm⟩, hsuit⟩

theorem domainsInsertAll_none {data : InputData} :
    ∀ (l : List (Subject × Nat)) (acc : List (Key × List Value)),
      (∃ p ∈ l, sessionDomain data p.1 = none) → domainsInsertAll data acc l = none := by
  intro l
  induction l with
  | nil => rintro acc ⟨p, hp, -⟩; cases hp
  | cons p rest ih =>
    rintro acc ⟨q, hq, hnone⟩
    rcases p with ⟨s, i⟩
    cases hs : sessionDomain data s with
    | none => simp [domainsInsertAll, hs]
    | some dom =>
      rcases List.mem_cons.1 hq with rfl | hq'
      · rw [hs] at hnone; cases hnone
      · simp only [domainsInsertAll, hs]
        exact ih _ ⟨q, hq', hnone⟩

theorem domainsInsertAll_lookup_of_not_mem {data : InputData} {k : Key} :
    ∀ (l : List (Subject × Nat)) (acc res : List (Key × List Value)),
      domainsInsertAll data acc l = some res →
        (∀ p ∈ l, (p.1.id, p.2) ≠ k) → dictLookup k res = dictLookup k acc := by
  intro l
  induction l with
  | nil =>
    intro acc res h _
    rw [domainsInsertAll] at h
    cases h
    rfl
  | cons p rest ih =>
    intro acc res h hall
    rcases p with ⟨s, i⟩
    cases hs : sessionDomain data s with
    | none => rw [domainsInsertAll, hs] at h; cases h
    | some dom =>
      rw [domainsInsertAll, hs] at h
      have hne : (s.id, i) ≠ k := hall (s, i) (List.mem_cons_self _ _)
      rw [ih _ _ h fun q hq => hall q (List.mem_cons_of_mem _ hq)]
      exact dictLookup_dictInsert_ne dom (Ne.symm hne) |>.symm ▸ rfl

theorem dictLookup_dictInsert_isSome {α : Type} {k k' : Key} {d : List (Key × α)} (v : α)
    (h : (dictLookup k d).isSome = true) :
    (dictLookup k (dictInsert k' v d)).isSome = true := by
  by_cases hk : k = k'
  · subst hk
    rw [dictLookup_dictInsert_self]
    rfl
  · rw [dictLookup_dictInsert_ne v hk]
    exact h

theorem domainsInsertAll_lookup_isSome_mono {data : InputData} {k : Key} :
    ∀ (l : List (Subject × Nat)) (acc res : List (Key × List Value)),
      domainsInsertAll data acc l = some res →
        (dictLookup k acc).isSome = true → (dictLookup k res).isSome = true := by
  intro l
  induction l with
  | nil =>
    intro acc res h hk
    rw [domainsInsertAll] at h
    cases h
    exact hk
  | cons p rest ih =>
    intro acc res h hk
    rcases p with ⟨s, i⟩
    cases hs : sessionDomain data s with
    | none => rw [domainsInsertAll, hs] at h; cases h
    | some dom =>
      rw [domainsInsertAll, hs] at h
      exact ih _ _ h (dictLookup_dictInsert_isSome dom hk)

theorem domainsInsertAll_lookup_isSome {data : InputData} {k : Key} :
    ∀ (l : List (Subject × Nat)) (acc res : List (Key × List Value)),
      domainsInsertAll data acc l = some res →
        (∃ p ∈ l, (p.1.id, p.2) = k) → (dictLookup k res).isSome = true := by
  intro l
  induction l with
  | nil => rintro acc res _ ⟨p, hp, -⟩; cases hp
  | cons p rest ih =>
    rintro acc res h ⟨q, hq, hqk⟩
    rcases p with ⟨s, i⟩
    cases hs : sessionDomain data s with
    | none => rw [domainsInsertAll, hs] at h; cases h
    | some dom =>
      rw [domainsInsertAll, hs] at h
      rcases List.mem_cons.1 hq with rfl | hq'
      · apply domainsInsertAll_lookup_isSome_mono rest _ res h
        rw [← hqk]
        rw [dictLookup_dictInsert_self]
        rfl
      · exact ih _ _ h ⟨q, hq', hqk⟩

theorem domainsInsertAll_lookup {data : InputData} {k : Key} {D : List Value} :
    ∀ (l : List (Subject × Nat)) (acc res : List (Key × List Value)),
      domainsInsertAll data acc l = some res →
        (∃ p ∈ l, (p.1.id, p.2) = k) →
          (∀ p ∈ l, (p.1.id, p.2) = k → sessionDomain data p.1 = some D) →
            dictLookup k res = some D := by
  intro l
  induction l with
  | nil => rintro acc res _ ⟨p, hp, -⟩; cases hp
  | cons p rest ih =>
    rintro acc res h ⟨q, hq, hqk⟩ hall
    rcases p with ⟨s, i⟩
    cases hs : sessionDomain data s with
    | none => rw [domainsInsertAll, hs] at h; cases h
    | some dom =>
      rw [domainsInsertAll, hs] at h
      by_cases hk : (s.id, i) = k
      · have hdom : dom = D := by
          have := hall (s, i) (List.mem_cons_self _ _) hk
          rw [hs] at this
          cases this
          rfl
        subst hdom
        by_cases hrest : ∃ p ∈ rest, (p.1.id, p.2) = k
        · exact ih _ _ h hrest fun p hp hpk => hall p (List.mem_cons_of_mem _ hp) hpk
        · have hnm := domainsInsertAll_lookup_of_not_mem rest _ res h
            (fun p hp hpk => hrest ⟨p, hp, hpk⟩)
          rw [hnm, ← hk]
          exact dictLookup_dictInsert_self dom
      · have hq' : q ∈ rest := by
          rcases List.mem_cons.1 hq with rfl | hq'
          · exact absurd hqk hk
          · exact hq'
        exact ih _ _ h ⟨q, hq', hqk⟩ fun p hp hpk => hall p (List.mem_cons_of_mem _ hp) hpk

theorem mem_sessionKeys {data : InputData} {s : Subject} {i : Nat}
    (hs : s ∈ data.subjects) (hi : i < s.count) : (s, i) ∈ sessionKeys data := by
  rw [sessionKeys]
  exact List.mem_flatMap.2 ⟨s, hs, List.mem_map.2 ⟨i, List.mem_range.2 hi, rfl⟩⟩

theorem sessionKeys_mem {data : InputData} {p : Subject × Nat}
    (hp : p ∈ sessionKeys data) : p.1 ∈ data.subjects ∧ p.2 < p.1.count := by
  rw [sessionKeys] at hp
  rcases List.mem_flatMap.1 hp with ⟨s, hs, hmem⟩
  rcases List.mem_map.1 hmem with ⟨i, hir, rfl⟩
  exact ⟨hs, List.mem_range.1 hir⟩

theorem buildDomains_lookup_unique {data : InputData}
    {doms : List (Key × List Value)} {s : Subject} {i : Nat} {D : List Value}
    (hUnique : ∀ s' ∈ data.subjects, s'.id = s.id → s' = s)
    (hs : s ∈ data.subjects) (hi : i < s.count)
    (hD : sessionDomain data s = some D)
    (hd : buildDomains data = some doms) :
    dictLookup (s.id, i) doms = some D := by
  apply domainsInsertAll_lookup _ _ _ hd
  · exact ⟨(s, i), mem_sessionKeys hs hi, rfl⟩
  · rintro ⟨s', i'⟩ hp hpk
    simp only [Prod.mk.injEq] at hpk
    have hs' : s' = s := hUnique s' (sessionKeys_mem hp).1 hpk.1
    rw [hs']
    exact hD

theorem variablesOf_lookup_isSome {data : InputData} {doms : List (Key × List Value)}
    (hd : buildDomains data = some doms) {v : Key} (hv : v ∈ variablesOf data) :
    (dictLookup v doms).isSome = true := by
  rw [variablesOf] at hv
  rcases List.mem_flatMap.1 hv with ⟨s, hs, hmem⟩
  rcases List.mem_map.1 hmem with ⟨i, hir, rfl⟩
  exact domainsInsertAll_lookup_isSome _ _ _ hd
    ⟨(s, i), mem_sessionKeys hs (List.mem_range.1 hir), rfl⟩

theorem variablesOf_length (data : InputData) :
    (variablesOf data).length = totalSessions data := by
  rw [variablesOf, totalSessions, List.length_flatMap]
  congr 1
  apply List.map_congr_left
  intro s _
  simp

theorem variablesOf_nodup {data : InputData}
    (hids : (data.subjects.map fun s => s.id).Nodup) : (variablesOf data).Nodup := by
  rw [variablesOf, List.nodup_flatMap]
  constructor
  · intro s _
    exact List.Nodup.map (fun a b h => by simpa using h) (List.nodup_range _)
  · have hp : data.subjects.Pairwise (fun s1 s2 => s1.id ≠ s2.id) :=
      List.pairwise_map.1 hids
    refine hp.imp ?_
    intro a b hne x hx1 hx2
    rcases List.mem_map.1 hx1 with ⟨i, -, rfl⟩
    rcases List.mem_map.1 hx2 with ⟨j, -, hj⟩
    exact hne (congrArg Prod.fst hj).symm

theorem mem_variablesOf {data : InputData} {s : Subject} {i : Nat}
    (hs : s ∈ data.subjects) (hi : i < s.count) : (s.id, i) ∈ variablesOf data := by
  rw [variablesOf]
  exact List.mem_flatMap.2 ⟨s, hs, List.mem_map.2 ⟨i, List.mem_range.2 hi, rfl⟩⟩

theorem ReachInv_nil (data : InputData) (vars : List Key)
    (doms : List (Key × List Value)) : ReachInv data vars doms [] := by
  refine ⟨List.nodup_nil, ?_, ?_, consistentB_nil data⟩ <;> intro e he <;> cases he

theorem find_solution_sol_inv {data : InputData} {a : AsgList}
    (h : find_solution data = some (SearchRes.sol a)) :
    ∃ doms, buildDomains data = some doms ∧
      ReachInv data (variablesOf data) doms a ∧
        a.length = (variablesOf data).length := by
  rw [find_solution] at h
  cases hd : buildDomains data with
  | none => rw [hd] at h; cases h
  | some doms =>
    rw [hd] at h
    simp only [Option.some.injEq] at h
    rcases hp : backtrack data (variablesOf data) doms ((variablesOf data).length + 1) []
      with ⟨res, st⟩
    rw [hp] at h
    have hres : res = SearchRes.sol a := h
    subst hres
    have hpost := backtrack_sol ((variablesOf data).length + 1) [] a st
      (ReachInv_nil data (variablesOf data) doms) hp
    exact ⟨doms, rfl, hpost.1, hpost.2⟩

theorem sol_covers {vars : List Key} {a : AsgList}
    (hkeys : (dictKeys a).Nodup) (hksub : ∀ e ∈ a, e.1 ∈ vars)
    (hlen : a.length = vars.length) {v : Key} (hv : v ∈ vars) :
    ∃ val, (v, val) ∈ a := by
  by_contra hms
  push_neg at hms
  have hnotk : v ∉ dictKeys a := by
    intro hc
    rcases mem_dictKeys_iff.1 hc with ⟨val, hval⟩
    exact hms val hval
  have hnd : (v :: dictKeys a).Nodup := List.nodup_cons.2 ⟨hnotk, hkeys⟩
  have hsubs : (v :: dictKeys a) ⊆ vars := by
    intro x hx
    rcases List.mem_cons.1 hx with rfl | hx'
    · exact hv
    · rcases mem_dictKeys_iff.1 hx' with ⟨val, hval⟩
      exact hksub (x, val) hval
  have hle := nodup_subset_length hnd hsubs
  have h3 : (dictKeys a).length = a.length := by simp [dictKeys]
  simp only [List.length_cons] at hle
  omega

/-- C1: soundness of returned solutions — in every solution returned by
`find_solution`, any two distinct sessions sharing a time slot have different
rooms, different lecturers, and different groups (resolved via
subjectId → subject.groupId). -/
theorem C1_soundness (data : InputData) (a : AsgList)
    (h : find_solution data = some (SearchRes.sol a))
    (k1 k2 : Key) (v1 v2 : Value)
    (h1 : (k1, v1) ∈ a) (h2 : (k2, v2) ∈ a) (hk : k1 ≠ k2)
    (ht : v1.timeSlot = v2.timeSlot) :
    v1.room ≠ v2.room ∧ v1.lecturer ≠ v2.lecturer ∧
      ∃ g1 g2, subjGroup data k1.1 = some g1 ∧ subjGroup data k2.1 = some g2 ∧
        g1 ≠ g2 := by
  rcases find_solution_sol_inv h with ⟨doms, -, hInv, -⟩
  have hC : ConsistentB data a := hInv.2.2.2
  rcases consistentB_iff.1 hC with ⟨hsubj, hn1, hn2, hn3⟩
  refine ⟨?_, ?_, ?_⟩
  · intro hr
    have heq : trPair (k1, v1) = trPair (k2, v2) := by simp [trPair, ht, hr]
    have := List.inj_on_of_nodup_map hn1 h1 h2 heq
    exact hk (congrArg Prod.fst this)
  · intro hl
    have heq : tlPair (k1, v1) = tlPair (k2, v2) := by simp [tlPair, ht, hl]
    have := List.inj_on_of_nodup_map hn2 h1 h2 heq
    exact hk (congrArg Prod.fst this)
  · have hs1 := hsubj (k1, v1) h1
    have hs2 := hsubj (k2, v2) h2
    rcases Option.isSome_iff_exists.1 hs1 with ⟨s1, hfs1⟩
    rcases Option.isSome_iff_exists.1 hs2 with ⟨s2, hfs2⟩
    refine ⟨s1.groupId, s2.groupId, by simp [subjGroup, hfs1], by simp [subjGroup, hfs2], ?_⟩
    intro hgeq
    have heq : ggPair data (k1, v1) = ggPair data (k2, v2) := by
      simp [ggPair, subjGroup, hfs1, hfs2, ht, hgeq]
    have := List.inj_on_of_nodup_map hn3 h1 h2 heq
    exact hk (congrArg Prod.fst this)

/-- Witness for C1 on a two-session same-slot solution. -/
theorem C1_soundness_witness :
    (Value.mk "T" "R1" "L1").room ≠ (Value.mk "T" "R2" "L2").room ∧
      (Value.mk "T" "R1" "L1").lecturer ≠ (Value.mk "T" "R2" "L2").lecturer ∧
      ∃ g1 g2, subjGroup wData (("S1", 0) : Key).1 = some g1 ∧
        subjGroup wData (("S2", 0) : Key).1 = some g2 ∧ g1 ≠ g2 :=
  C1_soundness wData wSol (by decide) ("S1", 0) ("S2", 0)
    (Value.mk "T" "R1" "L1") (Value.mk "T" "R2" "L2")
    (by decide) (by decide) (by decide) (by decide)

/-- C2 (amended): completeness of the search — for every input whose subject
ids are pairwise distinct and for which some full assignment drawn from the
built domains satisfies all three hard constraints, the search returns a
solution. -/
theorem C2_completeness (data : InputData) (doms : List (Key × List Value))
    (F : AsgList)
    (hids : (data.subjects.map fun s => s.id).Nodup)
    (hd : buildDomains data = some doms)
    (hF : SatAssign data doms F) :
    ∃ a, find_solution data = some (SearchRes.sol a) := by
  obtain ⟨hFkeys, hFdomB, hutr, hult, hugt⟩ := hF
  have hvars : (variablesOf data).Nodup := variablesOf_nodup hids
  have hsubjAll : ∀ w ∈ variablesOf data, (findSubject data w.1).isSome = true :=
    fun w hw => findSubject_isSome_of_var hw
  have hdoms : ∀ v ∈ variablesOf data, (dictLookup v doms).isSome = true :=
    fun v hv => variablesOf_lookup_isSome hd hv
  have hFdom : ∀ e ∈ F, ∃ dom0, dictLookup e.1 doms = some dom0 ∧ e.2 ∈ dom0 := by
    intro e he
    have hB := hFdomB e he
    simp only [inDomainB] at hB
    split at hB
    · cases hB
    · rename_i dom heq
      exact ⟨dom, heq, by simpa using hB⟩
  have hFc : ConsistentB data F := ⟨hutr, hult, hugt⟩
  have hfuel : ucount (variablesOf data) [] < (variablesOf data).length + 1 := by
    rw [ucount_nil]
    exact Nat.lt_succ_self _
  rcases backtrack_complete hvars hsubjAll hdoms hFkeys hFdom hFc
    ((variablesOf data).length + 1) [] hfuel List.nodup_nil
    (by intro e he; cases he) with ⟨a, st, hb⟩
  refine ⟨a, ?_⟩
  rw [find_solution]
  simp only [hd, hb]

/-- Witness for C2 on the spec's example scenario. -/
theorem C2_completeness_witness : ∃ a, find_solution exData = some (SearchRes.sol a) :=
  C2_completeness exData exDoms exF (by decide) (by decide)
    ⟨by decide, by decide, by decide, by decide, by decide⟩

/-- Counterexample to C2 as stated: for `dupData` (two subjects with the same
id) a full satisfying assignment drawn from the built domains exists, yet the
search crashes with an IndexError instead of returning a solution. -/
theorem C2_counterexample :
    SatAssign dupData dupDoms dupF ∧ buildDomains dupData = some dupDoms ∧
      find_solution dupData = some SearchRes.crashIndex ∧
      (find_solution dupData).map isSol = some false :=
  ⟨⟨by decide, by decide, by decide, by decide, by decide⟩, by decide, by decide, by decide⟩

/-- C3: Domain Builder contract — for a subject uniquely identified by its id,
the built domain of each of its sessions is exactly the spec-side enumeration
(suited lecturer, sufficient capacity, time slots outermost then rooms then
lecturers, catalog order). -/
theorem C3_domain_builder (data : InputData) (doms : List (Key × List Value))
    (s : Subject) (g : Group) (i : Nat)
    (hUnique : ∀ s' ∈ data.subjects, s'.id = s.id → s' = s)
    (hs : s ∈ data.subjects)
    (hg : findGroup data s.groupId = some g)
    (hi : i < s.count)
    (hd : buildDomains data = some doms) :
    dictLookup (s.id, i) doms = some (specSessionDomain data s g) :=
  buildDomains_lookup_unique hUnique hs hi (sessionDomain_eq_spec hg) hd

/-- Witness for C3 on the spec's example scenario. -/
theorem C3_domain_builder_witness :
    dictLookup (("S", 0) : Key) exDoms = some (specSessionDomain exData exSubject exGroup) :=
  C3_domain_builder exData exDoms exSubject exGroup 0
    (by decide) (by decide) (by decide) (by decide) (by decide)

/-- C4: termination of the search — the fuel bound used by `find_solution`
(number of variables + 1) is never exhausted, so every run of the program's
search ends in a settled outcome. -/
theorem C4_termination (data : InputData) (r : SearchRes)
    (h : find_solution data = some r) : settled r = true := by
  rw [find_solution] at h
  cases hd : buildDomains data with
  | none => rw [hd] at h; cases h
  | some doms =>
    rw [hd] at h
    simp only [Option.some.injEq] at h
    have hno := @backtrack_no_oof data (variablesOf data) doms
      ((variablesOf data).length + 1) []
      (by rw [ucount_nil]; exact Nat.lt_succ_self _)
    subst h
    cases hq : (backtrack data (variablesOf data) doms
        ((variablesOf data).length + 1) []).1 with
    | sol a => rfl
    | noSol => rfl
    | crashIndex => rfl
    | crashKey => rfl
    | crashStop => rfl
    | outOfFuel => exact absurd hq hno

/-- Witness for C4 on the spec's example scenario. -/
theorem C4_termination_witness : settled (SearchRes.sol exF) = true :=
  C4_termination exData (SearchRes.sol exF) (by decide)

/-- C5 (amended): a subject with count ≥ 1 whose groupId is not in the group
catalog makes domain construction fail with a lookup error before any search
starts — provided the time-slot and room catalogs are nonempty and some
catalog lecturer is suited, so that the short-circuited group lookup is
actually evaluated. -/
theorem C5_missing_group (data : InputData) (s : Subject)
    (hs : s ∈ data.subjects) (hc : 1 ≤ s.count)
    (hg : findGroup data s.groupId = none)
    (ht : data.timeSlots ≠ []) (hr : data.rooms ≠ [])
    (hl : ∃ l ∈ data.lecturers, l.id ∈ s.suitedLecturers) :
    buildDomains data = none ∧ find_solution data = none := by
  have hsd : sessionDomain data s = none := sessionDomain_none hg ht hr hl
  have hbd : buildDomains data = none := by
    rw [buildDomains]
    exact domainsInsertAll_none _ _ ⟨(s, 0), mem_sessionKeys hs (by omega), hsd⟩
  refine ⟨hbd, ?_⟩
  rw [find_solution]
  simp only [hbd]

/-- Witness for C5 (amended). -/
theorem C5_missing_group_witness : buildDomains w5Data = none ∧ find_solution w5Data = none :=
  C5_missing_group w5Data w5Subject (by decide) (by decide) (by decide)
    (by decide) (by decide) (by decide)

/-- Counterexample to C5 as stated: `cex5Data` has a subject whose groupId is
absent from the group catalog, yet domain construction succeeds (the empty
lecturer catalog short-circuits the condition before the group lookup) and the
run ends in an ordinary no-solution result. -/
theorem C5_counterexample :
    (∀ g ∈ cex5Data.groups, g.id ≠ "G") ∧
      (∃ s ∈ cex5Data.subjects, s.groupId = "G" ∧ 1 ≤ s.count) ∧
      buildDomains cex5Data = some [(("S", 0), [])] ∧
      find_solution cex5Data = some SearchRes.noSol :=
  ⟨by decide, by decide, by decide, by decide⟩

/-- C6 (amended): for an input with pairwise-distinct subject ids whose domain
construction succeeds, a subject none of whose suited lecturers is in the
catalog gets the empty domain for every one of its sessions (its own
construction raises no error), and if its count is ≥ 1 the search returns the
no-solution signal. -/
theorem C6_empty_domain (data : InputData) (doms : List (Key × List Value)) (s : Subject)
    (hids : (data.subjects.map fun s => s.id).Nodup)
    (hs : s ∈ data.subjects)
    (hsuit : ∀ l ∈ data.lecturers, l.id ∉ s.suitedLecturers)
    (hd : buildDomains data = some doms) :
    sessionDomain data s = some [] ∧
      (∀ i, i < s.count → dictLookup (s.id, i) doms = some []) ∧
      (1 ≤ s.count → find_solution data = some SearchRes.noSol) := by
  have hsd : sessionDomain data s = some [] := sessionDomain_empty_of_unsuited hsuit
  have hUnique : ∀ s' ∈ data.subjects, s'.id = s.id → s' = s := by
    intro s' hs' heq
    exact List.inj_on_of_nodup_map hids hs' hs heq
  have hlk : ∀ i, i < s.count → dictLookup (s.id, i) doms = some [] :=
    fun i hi => buildDomains_lookup_unique hUnique hs hi hsd hd
  refine ⟨hsd, hlk, ?_⟩
  intro hc
  have hvars : (variablesOf data).Nodup := variablesOf_nodup hids
  have hsubjAll : ∀ w ∈ variablesOf data, (findSubject data w.1).isSome = true :=
    fun w hw => findSubject_isSome_of_var hw
  have hdoms : ∀ v ∈ variablesOf data, (dictLookup v doms).isSome = true :=
    fun v hv => variablesOf_lookup_isSome hd hv
  have hfuel : ucount (variablesOf data) [] < (variablesOf data).length + 1 := by
    rw [ucount_nil]
    exact Nat.lt_succ_self _
  rcases backtrack_progress hvars hsubjAll hdoms ((variablesOf data).length + 1) []
    hfuel List.nodup_nil (by intro e he; cases he) with hnos | ⟨a, st, hsol⟩
  · rw [find_solution]
    simp only [hd]
    rw [hnos]
  · exfalso
    have hpost := backtrack_sol ((variablesOf data).length + 1) [] a st
      (ReachInv_nil data (variablesOf data) doms) hsol
    obtain ⟨⟨hkeys, hksub, hdomvals, -⟩, hlen⟩ := hpost
    have hv0 : (s.id, 0) ∈ variablesOf data := mem_variablesOf hs (by omega)
    rcases sol_covers hkeys hksub hlen hv0 with ⟨val, hval⟩
    rcases hdomvals ((s.id, 0), val) hval with ⟨dom0, hlkup, hmemv⟩
    have : dom0 = [] := by
      have h0 := hlk 0 (by omega)
      rw [h0] at hlkup
      cases hlkup
      rfl
    rw [this] at hmemv
    cases hmemv

/-- Witness for C6 (amended). -/
theorem C6_empty_domain_witness :
    sessionDomain w6Data w6Subject = some [] ∧
      dictLookup (("S", 0) : Key) w6Doms = some [] ∧
      find_solution w6Data = some SearchRes.noSol :=
  ⟨(C6_empty_domain w6Data w6Doms w6Subject (by decide) (by decide) (by decide)
      (by decide)).1,
   (C6_empty_domain w6Data w6Doms w6Subject (by decide) (by decide) (by decide)
      (by decide)).2.1 0 (by decide),
   (C6_empty_domain w6Data w6Doms w6Subject (by decide) (by decide) (by decide)
      (by decide)).2.2 (by decide)⟩

/-- Counterexample to C6 as stated: in `cex6Data` the first "B" subject has no
suited lecturer in the catalog, yet the session key ("B", 0) is mapped to the
second "B" subject's nonempty domain and the search crashes with an IndexError
instead of returning no-solution. -/
theorem C6_counterexample :
    (∃ s ∈ cex6Data.subjects,
      (∀ l ∈ cex6Data.lecturers, l.id ∉ s.suitedLecturers) ∧ 1 ≤ s.count) ∧
      buildDomains cex6Data = some [(("B", 0), [Value.mk "T" "R" "L"])] ∧
      find_solution cex6Data = some SearchRes.crashIndex :=
  ⟨by decide, by decide, by decide⟩

/-- C7 (amended): consistency-check transparency — when the session is not
already assigned, `is_consistent` returns with the Assignment exactly as it
found it, whatever the boolean result. -/
theorem C7_transparency (data : InputData) (asg : AsgList) (var : Key) (value : Value)
    (b : Bool) (asg1 : AsgList) (hmem : dictMem var asg = false)
    (h : is_consistent data asg var value = some (b, asg1)) : asg1 = asg := by
  rw [(is_consistent_eq_some h).1, dictErase_dictInsert value hmem]

/-- Witness for C7 (amended): a call on a fresh session key restores the state. -/
theorem C7_transparency_witness :
    dictMem (("S2", 0) : Key) exF = false ∧ exF = exF :=
  ⟨by decide,
   C7_transparency exData exF ("S2", 0) (Value.mk "T" "R" "L") false exF
     (by decide) (by decide)⟩

/-- Counterexample to C7 as stated: calling `is_consistent` on a session that
is already assigned deletes the session's entry instead of restoring it. -/
theorem C7_counterexample :
    is_consistent exData exF ("S", 0) (Value.mk "T" "R" "L") = some (true, []) ∧
      ([] : AsgList) ≠ exF :=
  ⟨by decide, by decide⟩

/-- C8: totality of solutions — a returned solution assigns a value to every
session: its size is the sum of the subjects' occurrence counts and every
variable is among its keys. -/
theorem C8_totality (data : InputData) (a : AsgList)
    (h : find_solution data = some (SearchRes.sol a)) :
    a.length = totalSessions data ∧ ∀ v ∈ variablesOf data, dictMem v a = true := by
  rcases find_solution_sol_inv h with ⟨doms, -, hInv, hlen⟩
  obtain ⟨hkeys, hksub, -, -⟩ := hInv
  refine ⟨by rw [hlen, variablesOf_length], ?_⟩
  intro v hv
  rcases sol_covers hkeys hksub hlen hv with ⟨val, hval⟩
  exact dictMem_eq_true_iff.2 ⟨val, hval⟩

/-- Witness for C8 on the spec's example scenario. -/
theorem C8_totality_witness :
    exF.length = totalSessions exData ∧ ∀ v ∈ variablesOf exData, dictMem v exF = true :=
  C8_totality exData exF (by decide)

/-- C9: stack discipline of backtracking — whenever a `backtrack` call returns
the no-solution signal, the assignment state after the call equals the state
before it: every commit made inside the call was undone in the same frame. -/
theorem C9_stack_discipline (data : InputData) (vars : List Key)
    (doms : List (Key × List Value)) (fuel : Nat) (asg st : AsgList)
    (h : backtrack data vars doms fuel asg = (SearchRes.noSol, st)) : st = asg :=
  backtrack_restore fuel asg st h

/-- Witness for C9: an exhausted search from a nonempty assignment restores it. -/
theorem C9_stack_discipline_witness :
    backtrack exData [("S", 0), ("X", 0)]
        [(("S", 0), [Value.mk "T" "R" "L"]), (("X", 0), ([] : List Value))] 3 exF =
      (SearchRes.noSol, exF) ∧ exF = exF :=
  ⟨by decide,
   C9_stack_discipline exData [("S", 0), ("X", 0)]
     [(("S", 0), [Value.mk "T" "R" "L"]), (("X", 0), ([] : List Value))] 3 exF exF
     (by decide)⟩

/-- C10: safe variable selection — with pairwise-distinct subject ids the
unassigned-variable list is nonempty whenever the assignment is smaller than
the variable list, so taking its head is in bounds; with a duplicated subject
id the duplicate keys collapse into one assignment entry and the search run
reaches the selection with an empty unassigned list, crashing with an
IndexError instead of returning a result. -/
theorem C10_selection_safety :
    (∀ (data : InputData) (asg : AsgList),
      (data.subjects.map fun s => s.id).Nodup →
        asg.length < (variablesOf data).length →
          (variablesOf data).filter (fun v => !dictMem v asg) ≠ []) ∧
      variablesOf dupData = [("A", 0), ("A", 0)] ∧
      find_solution dupData = some SearchRes.crashIndex := by
  refine ⟨?_, by decide, by decide⟩
  intro data asg hids hlen
  exact unassigned_ne_nil (variablesOf_nodup hids) hlen

/-- Witness for C10's universally quantified part. -/
theorem C10_selection_safety_witness :
    (variablesOf exData).filter (fun v => !dictMem v ([] : AsgList)) ≠ [] :=
  C10_selection_safety.1 exData [] (by decide) (by decide)

end Main
